import Mathlib

/-!
Verification of the calculator core of `unsure-calc` (`core/calc-core.js`).

The JavaScript source is shallowly embedded:

* JS IEEE-754 numbers are modelled by `JSNum`: `NaN`, the two infinities and
  exact rationals.  Finite arithmetic is exact (no rounding, no overflow and a
  single zero); the special-value propagation rules (`NaN`, `±Infinity`,
  division by zero, ECMAScript `Math.pow` cases) follow the ECMAScript
  semantics used by the source.  None of the verified claims depends on
  binary-float rounding, overflow or the sign of zero.
* `Math.pow` with a positive base and a non-integer exponent produces an
  irrational real; it is modelled by the abstract host function `Host.pow`.
  `Math.random`-driven Gaussian sampling (the Box-Muller transform with its
  cached spare value, `gaussianRandom` in the source) is modelled by the
  abstract stream `Host.gauss` of standard-normal draws consumed through an
  explicit counter.  All theorems hold for every host.
* JS exceptions are `Except String`; JS objects used as string-keyed maps are
  association lists preserving insertion order (JS property order).
* Loops that are not structural recursions in the source carry a fuel
  parameter, always called with enough fuel for the executions the theorems
  examine, so that every definition evaluates by kernel reduction.
-/

set_option maxRecDepth 20000

set_option allowUnsafeReducibility true

attribute [semireducible] Rat.add Rat.mul Rat.sub Rat.div Rat.neg Rat.inv Rat.blt

deriving instance DecidableEq for Except

namespace UnsureCalc

/-- Model of a JavaScript number: `NaN`, `Infinity`, `-Infinity`, or a finite
value (modelled as an exact rational). -/
inductive JSNum where
  | nan : JSNum
  | inf : JSNum
  | ninf : JSNum
  | fin (q : ℚ) : JSNum
deriving DecidableEq

namespace JSNum

/-- JS `isFinite`. -/
def isFinite : JSNum → Bool
  | fin _ => true
  | _ => false

/-- JS unary minus. -/
def jsNeg : JSNum → JSNum
  | nan => nan
  | inf => ninf
  | ninf => inf
  | fin q => fin (-q)

/-- JS `+` on numbers. -/
def jsAdd : JSNum → JSNum → JSNum
  | nan, _ => nan
  | _, nan => nan
  | inf, ninf => nan
  | ninf, inf => nan
  | inf, _ => inf
  | _, inf => inf
  | ninf, _ => ninf
  | _, ninf => ninf
  | fin a, fin b => fin (a + b)

/-- JS binary `-` on numbers. -/
def jsSub : JSNum → JSNum → JSNum
  | nan, _ => nan
  | _, nan => nan
  | inf, inf => nan
  | ninf, ninf => nan
  | inf, _ => inf
  | _, inf => ninf
  | ninf, _ => ninf
  | _, ninf => inf
  | fin a, fin b => fin (a - b)

/-- JS `*` on numbers. -/
def jsMul : JSNum → JSNum → JSNum
  | nan, _ => nan
  | _, nan => nan
  | inf, inf => inf
  | inf, ninf => ninf
  | ninf, inf => ninf
  | ninf, ninf => inf
  | inf, fin q => if 0 < q then inf else if q < 0 then ninf else nan
  | fin q, inf => if 0 < q then inf else if q < 0 then ninf else nan
  | ninf, fin q => if 0 < q then ninf else if q < 0 then inf else nan
  | fin q, ninf => if 0 < q then ninf else if q < 0 then inf else nan
  | fin a, fin b => fin (a * b)

/-- Raw JS `/` on numbers (the source also uses an explicitly zero-guarded
variant, see `jsDivGuard`).  The model has a single zero, so a finite value
divided by zero takes the sign of the numerator. -/
def jsDiv : JSNum → JSNum → JSNum
  | nan, _ => nan
  | _, nan => nan
  | inf, inf => nan
  | inf, ninf => nan
  | ninf, inf => nan
  | ninf, ninf => nan
  | inf, fin q => if 0 ≤ q then inf else ninf
  | ninf, fin q => if 0 ≤ q then ninf else inf
  | fin _, inf => fin 0
  | fin _, ninf => fin 0
  | fin a, fin b =>
    if b = 0 then (if a = 0 then nan else if 0 < a then inf else ninf)
    else fin (a / b)

/-- The `b === 0 ? NaN : a / b` pattern the source uses for sample and mean
division. -/
def jsDivGuard (a b : JSNum) : JSNum :=
  if b = fin 0 then nan else jsDiv a b

/-- JS `<=` (false whenever an operand is `NaN`). -/
def jsLe : JSNum → JSNum → Bool
  | nan, _ => false
  | _, nan => false
  | ninf, _ => true
  | _, inf => true
  | inf, _ => false
  | _, ninf => false
  | fin a, fin b => a ≤ b

/-- JS `<` (false whenever an operand is `NaN`). -/
def jsLt : JSNum → JSNum → Bool
  | nan, _ => false
  | _, nan => false
  | inf, _ => false
  | _, inf => true
  | ninf, ninf => false
  | ninf, _ => true
  | _, ninf => false
  | fin a, fin b => a < b

/-- JS `===` on numbers (`NaN` is not equal to itself). -/
def jsEqB : JSNum → JSNum → Bool
  | nan, _ => false
  | _, nan => false
  | inf, inf => true
  | ninf, ninf => true
  | fin a, fin b => a = b
  | _, _ => false

/-- JS `Math.min` of two numbers. -/
def jsMin (a b : JSNum) : JSNum :=
  match a, b with
  | nan, _ => nan
  | _, nan => nan
  | _, _ => if jsLe a b then a else b

/-- JS `Math.max` of two numbers. -/
def jsMax (a b : JSNum) : JSNum :=
  match a, b with
  | nan, _ => nan
  | _, nan => nan
  | _, _ => if jsLe a b then b else a

/-- JS `Math.min` of four numbers, as used for the interval corner products,
powers and quotients. -/
def jsMin4 (a b c d : JSNum) : JSNum := jsMin (jsMin (jsMin a b) c) d

/-- JS `Math.max` of four numbers. -/
def jsMax4 (a b c d : JSNum) : JSNum := jsMax (jsMax (jsMax a b) c) d

/-- JS `Math.abs`. -/
def jsAbs : JSNum → JSNum
  | nan => nan
  | inf => inf
  | ninf => inf
  | fin q => fin |q|

/-- Whether a rational is an odd integer (used by the `Math.pow` cases for a
negative-infinity base). -/
def isOddInt (e : ℚ) : Bool := e.den = 1 && e.num % 2 ≠ 0

/-- ECMAScript `Math.pow`.  `P` models the correctly rounded real power for a
positive finite base and a finite non-integer exponent, which is not
representable in `ℚ`; no verified claim exercises that case. -/
def jsPow (P : ℚ → ℚ → ℚ) : JSNum → JSNum → JSNum
  | _, nan => nan
  | a, inf =>
    match a with
    | nan => nan
    | inf => inf
    | ninf => inf
    | fin q => if q = 1 ∨ q = -1 then nan else if 1 < |q| then inf else fin 0
  | a, ninf =>
    match a with
    | nan => nan
    | inf => fin 0
    | ninf => fin 0
    | fin q => if q = 1 ∨ q = -1 then nan else if 1 < |q| then fin 0 else inf
  | a, fin e =>
    if e = 0 then fin 1
    else
      match a with
      | nan => nan
      | inf => if 0 < e then inf else fin 0
      | ninf =>
        if 0 < e then (if isOddInt e then ninf else inf) else fin 0
      | fin q =>
        if e.den = 1 then
          if q = 0 then (if 0 < e then fin 0 else inf) else fin (q ^ e.num)
        else
          if q < 0 then nan
          else if q = 0 then (if 0 < e then fin 0 else inf)
          else fin (P q e)

end JSNum

open JSNum

/-- The host environment: `pow` models the correctly rounded real power used by
`Math.pow` for a positive base and non-integer exponent, `gauss` the stream of
standard-normal draws produced by `gaussianRandom` (Box-Muller over
`Math.random`, including its cached spare value), consumed via a counter. -/
structure Host where
  pow : ℚ → ℚ → ℚ
  gauss : Nat → ℚ

/-- `DEFAULT_SAMPLES`. -/
def DEFAULT_SAMPLES : Nat := 10000

/-- The standard-deviation divisor `3.28970725` of the `~` operator. -/
def STDDEV_DIVISOR : ℚ := 328970725 / 100000000

/-- `generateSamples(mean, stdDev, sampleCount)`: empty for a non-positive
count, `sampleCount` copies of `mean` when `stdDev === 0` (no random draw is
consumed), otherwise `sampleCount` Gaussian draws `mean + stdDev * g` taken
from the host stream starting at the current counter. -/
def generateSamples (h : Host) (mean stdDev : JSNum) (sampleCount : Nat) (ctr : Nat) :
    List JSNum × Nat :=
  if sampleCount = 0 then ([], ctr)
  else if jsEqB stdDev (fin 0) then (List.replicate sampleCount mean, ctr)
  else
    (((List.range sampleCount).map fun k => jsAdd mean (jsMul stdDev (fin (h.gauss (ctr + k))))),
      ctr + sampleCount)

/-- A token of the plain pipeline: a numeric literal or an operator string
(`"NEG"` is the synthetic unary-minus operator). -/
inductive PTok where
  | num (q : ℚ)
  | op (s : String)
deriving DecidableEq

/-- Digits to a natural number. -/
def digitsToNat (ds : List Char) : Nat :=
  ds.foldl (fun acc c => 10 * acc + (c.toNat - 48)) 0

/-- Split a leading run of decimal digits off a character list. -/
def takeDigits : List Char → List Char × List Char
  | [] => ([], [])
  | c :: cs =>
    if c.isDigit then
      let p := takeDigits cs
      (c :: p.1, p.2)
    else ([], c :: cs)

/-- `parseFloat` on `digits[.digits]`, exact (the model has no binary
rounding). -/
def parseFloatDigits (intDs fracDs : List Char) : ℚ :=
  (digitsToNat intDs : ℚ) + (digitsToNat fracDs : ℚ) / (10 : ℚ) ^ fracDs.length

/-- The single-character operators of `OPERATOR_REGEX`. -/
def opChars : List Char := ['+', '-', '*', '^', '/', '~', '(', ')']

/-- The tokenizer loop.  Fuel is one per consumed character; `tokenize` supplies
enough for any input.  `orig` is the original string kept for the error
message. -/
def tokenizeGo (orig : String) : Nat → List Char → Except String (List PTok)
  | 0, _ => .error "tokenizer fuel exhausted"
  | _, [] => .ok []
  | f + 1, c :: cs =>
    if c.isWhitespace then tokenizeGo orig f cs
    else if c.isDigit then
      let p := takeDigits (c :: cs)
      match p.2 with
      | '.' :: c2 :: rest2 =>
        if c2.isDigit then
          let p2 := takeDigits (c2 :: rest2)
          do
            let ts ← tokenizeGo orig f p2.2
            .ok (PTok.num (parseFloatDigits p.1 p2.1) :: ts)
        else do
          let ts ← tokenizeGo orig f p.2
          .ok (PTok.num (parseFloatDigits p.1 []) :: ts)
      | r => do
        let ts ← tokenizeGo orig f r
        .ok (PTok.num (parseFloatDigits p.1 []) :: ts)
    else if c ∈ opChars then do
      let ts ← tokenizeGo orig f cs
      .ok (PTok.op (String.mk [c]) :: ts)
    else
      .error ("Syntax Error: Cannot parse near '" ++ String.mk ((c :: cs).take 10) ++
        "...' in expression '" ++ orig ++ "'")

/-- `tokenize`: numbers and single-character operators; whitespace skipped
(the source's initial `trim` is subsumed by the whitespace rule). -/
def tokenize (s : String) : Except String (List PTok) :=
  tokenizeGo s (s.data.length + 1) s.data

/-- The shunting-yard precedence table. -/
def precedenceOf : String → Option Nat
  | "+" => some 1
  | "-" => some 1
  | "*" => some 2
  | "/" => some 2
  | "^" => some 3
  | "~" => some 4
  | "NEG" => some 5
  | _ => none

/-- The shunting-yard associativity table (`"~"` and `"NEG"` are right
associative, everything else — including `"^"`, as in the source — left). -/
def assocOf : String → String
  | "~" => "R"
  | "NEG" => "R"
  | _ => "L"

/-- A `-` token is unary when it is first, follows `(`, or follows any token
that is neither a number nor `)`. -/
def unaryCtx : Option PTok → Bool
  | none => true
  | some (PTok.num _) => false
  | some (PTok.op s) => s ≠ ")"

/-- The inner pop loop of the operator case: pop while the top is not `(` and
has higher precedence, or equal precedence with a left-associative incoming
operator.  Returns the remaining stack and the extended output queue. -/
def popWhileGE (o1 : String) : List String → List PTok → List String × List PTok
  | [], out => ([], out)
  | top :: rest, out =>
    if top ≠ "(" &&
        ((precedenceOf top).getD 0 > (precedenceOf o1).getD 0 ||
          ((precedenceOf top).getD 0 = (precedenceOf o1).getD 0 && assocOf o1 = "L")) then
      popWhileGE o1 rest (out ++ [PTok.op top])
    else (top :: rest, out)

/-- The `)` case: pop to the output queue until the matching `(`. -/
def syCloseParen : List String → List PTok → Except String (List String × List PTok)
  | [], _ => .error "Mismatched parentheses: Found ')' without matching '('"
  | o :: rest, out =>
    if o = "(" then .ok (rest, out)
    else syCloseParen rest (out ++ [PTok.op o])

/-- The final drain of the operator stack. -/
def syDrain : List String → List PTok → Except String (List PTok)
  | [], out => .ok out
  | o :: rest, out =>
    if o = "(" then .error "Mismatched parentheses: Found '(' without matching ')'"
    else syDrain rest (out ++ [PTok.op o])

/-- The shunting-yard main loop over the input tokens.  As in the source,
`prev` is not updated by the `)` case. -/
def syGo : List PTok → Option PTok → List PTok → List String → Except String (List PTok)
  | [], _, out, stack => syDrain stack out
  | PTok.num q :: rest, _, out, stack =>
    syGo rest (some (PTok.num q)) (out ++ [PTok.num q]) stack
  | PTok.op s :: rest, prev, out, stack =>
    if s = "-" && unaryCtx prev then
      syGo rest (some (PTok.op "-")) out ("NEG" :: stack)
    else if s = "(" then
      syGo rest (some (PTok.op "(")) out ("(" :: stack)
    else if s = ")" then do
      let p ← syCloseParen stack out
      syGo rest prev p.2 p.1
    else
      match precedenceOf s with
      | some _ =>
        let p := popWhileGE s stack out
        syGo rest (some (PTok.op s)) p.2 (s :: p.1)
      | none => .error ("Unknown token: " ++ s)

/-- `shuntingYard`: infix tokens to Reverse Polish Notation. -/
def shuntingYard (ts : List PTok) : Except String (List PTok) :=
  syGo ts none [] []

/-- An `UncertainValue`: mean, interval bounds and optional Monte-Carlo
samples. -/
structure UV where
  mean : JSNum
  min : JSNum
  max : JSNum
  samples : Option (List JSNum)
deriving DecidableEq

/-- `createNumberValue`. -/
def uvOfNum (q : ℚ) : UV := ⟨fin q, fin q, fin q, none⟩

/-- A JS `samples ?? mean` value: either a sample array or a plain number. -/
inductive SampOrNum where
  | arr (l : List JSNum)
  | num (x : JSNum)

/-- Indexing as in the `operateSamples` loop.  Out-of-range JS indexing yields
`undefined`, whose arithmetic is `NaN`; in the pipeline all indexed arrays have
length `sampleCount`, so the default is never observed. -/
def SampOrNum.pick : SampOrNum → Nat → JSNum
  | .num x, _ => x
  | .arr l, i => l.getD i JSNum.nan

/-- `samples ?? mean`. -/
def sampOrNum (s : Option (List JSNum)) (m : JSNum) : SampOrNum :=
  match s with
  | some l => .arr l
  | none => .num m

/-- The per-element operation of `operateSamples` (division is zero-guarded to
`NaN`, `^` is `Math.pow`); `none` for an unknown operation. -/
def sampOp (P : ℚ → ℚ → ℚ) : String → Option (JSNum → JSNum → JSNum)
  | "+" => some jsAdd
  | "-" => some jsSub
  | "*" => some jsMul
  | "/" => some jsDivGuard
  | "^" => some (jsPow P)
  | _ => none

/-- `Array.isArray` on a `samples ?? mean` value. -/
def SampOrNum.isArr : SampOrNum → Bool
  | .arr _ => true
  | .num _ => false

/-- `operateSamples`: `null` when both operands are exact numbers (the
`!aIsArray && !bIsArray` guard), otherwise an array of length `sampleCount`
combining elementwise.  The source raises the unknown-operation error inside
the loop; it is hoisted here (observably equal for the callers, which always
pass a known operation). -/
def operateSamples (P : ℚ → ℚ → ℚ) (samplesA samplesB : SampOrNum) (operation : String)
    (sampleCount : Nat) : Except String (Option (List JSNum)) :=
  if !samplesA.isArr && !samplesB.isArr then .ok none
  else
    match sampOp P operation with
    | none => .error ("Unknown sample operation: " ++ operation)
    | some f =>
      .ok (some ((List.range sampleCount).map fun i =>
        f (samplesA.pick i) (samplesB.pick i)))

/-- The mean/interval triple of a binary arithmetic step of `evalRpn` (the
`newMean`, `newMin`, `newMax` switches; division overrides the mean in the
degenerate-zero-divisor case). -/
def rpnBinaryTriple (P : ℚ → ℚ → ℚ) (s : String) (uvA uvB : UV) : JSNum × JSNum × JSNum :=
  let newMean : JSNum :=
    match s with
    | "+" => jsAdd uvA.mean uvB.mean
    | "-" => jsSub uvA.mean uvB.mean
    | "*" => jsMul uvA.mean uvB.mean
    | "/" => jsDivGuard uvA.mean uvB.mean
    | "^" => jsPow P uvA.mean uvB.mean
    | _ => JSNum.nan
  match s with
  | "+" => (newMean, jsAdd uvA.min uvB.min, jsAdd uvA.max uvB.max)
  | "-" => (newMean, jsSub uvA.min uvB.max, jsSub uvA.max uvB.min)
  | "*" =>
    (newMean,
      jsMin4 (jsMul uvA.min uvB.min) (jsMul uvA.min uvB.max)
        (jsMul uvA.max uvB.min) (jsMul uvA.max uvB.max),
      jsMax4 (jsMul uvA.min uvB.min) (jsMul uvA.min uvB.max)
        (jsMul uvA.max uvB.min) (jsMul uvA.max uvB.max))
  | "^" =>
    (newMean,
      jsMin4 (jsPow P uvA.min uvB.min) (jsPow P uvA.min uvB.max)
        (jsPow P uvA.max uvB.min) (jsPow P uvA.max uvB.max),
      jsMax4 (jsPow P uvA.min uvB.min) (jsPow P uvA.min uvB.max)
        (jsPow P uvA.max uvB.min) (jsPow P uvA.max uvB.max))
  | "/" =>
    if jsLe uvB.min (fin 0) && jsLe (fin 0) uvB.max then
      if jsEqB uvB.min (fin 0) && jsEqB uvB.max (fin 0) then
        (JSNum.nan, JSNum.nan, JSNum.nan)
      else if jsEqB uvA.min (fin 0) && jsEqB uvA.max (fin 0) then
        (newMean, fin 0, fin 0)
      else (newMean, JSNum.ninf, JSNum.inf)
    else
      (newMean,
        jsMin4 (jsDiv uvA.min uvB.min) (jsDiv uvA.min uvB.max)
          (jsDiv uvA.max uvB.min) (jsDiv uvA.max uvB.max),
        jsMax4 (jsDiv uvA.min uvB.min) (jsDiv uvA.min uvB.max)
          (jsDiv uvA.max uvB.min) (jsDiv uvA.max uvB.max))
  | _ => (JSNum.nan, JSNum.nan, JSNum.nan)

/-- The `evalRpn` loop: stack machine over RPN tokens, threading the Gaussian
draw counter. -/
def evalRpnGo (h : Host) (sampleCount : Nat) :
    List PTok → List UV → Nat → Except String (Option UV)
  | [], stack, _ =>
    match stack with
    | [] => .ok none
    | [v] => .ok (some v)
    | _ => .error "Invalid expression: Operands left over"
  | t :: rest, stack, ctr =>
    match t with
    | PTok.num q => evalRpnGo h sampleCount rest (uvOfNum q :: stack) ctr
    | PTok.op s =>
      if s = "NEG" then
        match stack with
        | [] => .error "Not enough operands for unary minus"
        | a :: st =>
          let nmin := jsMin (jsNeg a.max) (jsNeg a.min)
          let nmax := jsMax (jsNeg a.max) (jsNeg a.min)
          evalRpnGo h sampleCount rest
            (⟨jsNeg a.mean, nmin, nmax, a.samples.map (List.map jsNeg)⟩ :: st) ctr
      else if s = "~" then
        match stack with
        | uvB :: uvA :: st =>
          if uvA.samples ≠ none ∨ uvB.samples ≠ none then
            .error "Operands for '~' must be exact numbers (e.g., 100~200, not (5~10)~200)"
          else
            let a := uvA.mean
            let b := uvB.mean
            let mean := jsDiv (jsAdd a b) (fin 2)
            let stdDev := jsDiv (jsAbs (jsSub b a)) (fin STDDEV_DIVISOR)
            let p := generateSamples h mean stdDev sampleCount ctr
            evalRpnGo h sampleCount rest (⟨mean, jsMin a b, jsMax a b, some p.1⟩ :: st) p.2
        | _ => .error "Not enough operands for '~'"
      else if s ∈ ["+", "-", "*", "/", "^"] then
        match stack with
        | uvB :: uvA :: st => do
          let triple := rpnBinaryTriple h.pow s uvA uvB
          let samps ← operateSamples h.pow (sampOrNum uvA.samples uvA.mean)
            (sampOrNum uvB.samples uvB.mean) s sampleCount
          evalRpnGo h sampleCount rest (⟨triple.1, triple.2.1, triple.2.2, samps⟩ :: st) ctr
        | _ => .error ("Not enough operands for '" ++ s ++ "'")
      else .error ("Internal Error: Unknown RPN token: " ++ s)

/-- `evalRpn`: evaluate an RPN queue into an optional `UncertainValue`
(`none` for an empty queue). -/
def evalRpn (rpn : List PTok) (sampleCount : Nat) (h : Host) : Except String (Option UV) :=
  evalRpnGo h sampleCount rpn [] 0

/-- `evaluateExpression`: tokenize, parse to RPN, evaluate. -/
def evaluateExpression (expression : String) (sampleCount : Nat) (h : Host) :
    Except String (Option UV) := do
  let tokens ← tokenize expression
  let rpn ← shuntingYard tokens
  evalRpn rpn sampleCount h

/-- The finite rationals of a sample list, in order.  The source filters with
`!isNaN(n) && isFinite(n)`, which keeps exactly the finite values. -/
def finiteVals (l : List JSNum) : List ℚ :=
  l.filterMap fun x => match x with | .fin q => some q | _ => none

/-- `getQuantiles(samples)`: 5th/95th percentile of the ascending-sorted finite
samples, at the clamped indices `floor(0.05*n)-1` and `ceil(0.95*n)-1`
(`0.05*n` and `0.95*n` are exact here, `n/20` and `19*n/20`); `{NaN, NaN}` for
a null, empty or all-invalid input. -/
def getQuantiles (samples : Option (List JSNum)) : JSNum × JSNum :=
  match samples with
  | none => (JSNum.nan, JSNum.nan)
  | some l =>
    if l.length = 0 then (JSNum.nan, JSNum.nan)
    else
      let valid := finiteVals l
      if valid.length = 0 then (JSNum.nan, JSNum.nan)
      else
        let sorted := List.insertionSort (· ≤ ·) valid
        let len := sorted.length
        let p05Index : Nat := (max 0 (⌊(len : ℚ) / 20⌋ - 1)).toNat
        let p95Index : Nat := (min ((len : ℤ) - 1) (⌈(19 : ℚ) * len / 20⌉ - 1)).toNat
        (JSNum.fin (sorted.getD p05Index 0), JSNum.fin (sorted.getD p95Index 0))

/-- `Number.EPSILON`, `2 ^ (-52)`. -/
def EPSILON : ℚ := 1 / 4503599627370496

/-- `roundCurrencyValue` on a finite value:
`Math.round((value + Number.EPSILON) * 100) / 100` (`Math.round` is
`floor(x + 1/2)`, half toward positive infinity). -/
def roundQ (q : ℚ) : ℚ := ((⌊(q + EPSILON) * 100 + 1 / 2⌋ : ℤ) : ℚ) / 100

/-- `roundCurrencyValue`: round to 2 decimals, passing `NaN`/infinities
through. -/
def roundCurrencyValue : JSNum → JSNum
  | .fin q => .fin (roundQ q)
  | x => x

/-- Left-pad a numeral with zeros to a digit count. -/
def padZeros (digits : Nat) (n : Nat) : String :=
  let s := toString n
  String.mk (List.replicate (digits - s.length) '0') ++ s

/-- `Number.prototype.toFixed(digits)` on an exact rational: nearest multiple
of `10^-digits`, ties toward the larger value, printed with exactly `digits`
decimals. -/
def toFixedQ (digits : Nat) (q : ℚ) : String :=
  let scaled : ℤ := ⌊q * (10 : ℚ) ^ digits + 1 / 2⌋
  let sign := if scaled < 0 then "-" else ""
  let m := scaled.natAbs
  if digits = 0 then sign ++ toString m
  else sign ++ toString (m / 10 ^ digits) ++ "." ++ padZeros digits (m % 10 ^ digits)

/-- The `replace(/\.?0+$/, "")` trailing-zero strip applied after `toFixed`. -/
def stripTrailingZeros (s : String) : String :=
  match s.data.reverse with
  | '0' :: _ =>
    let cs := s.data.reverse.dropWhile (fun c => c = '0')
    let cs := match cs with
      | '.' :: r => r
      | r => r
    String.mk cs.reverse
  | _ => s

/-- `String.prototype.padStart` with spaces. -/
def padStart (s : String) (w : Nat) : String :=
  if s.length < w then String.mk (List.replicate (w - s.length) ' ') ++ s else s

/-- Fuelled base-10 logarithm on naturals: largest `k` with `10^k ≤ n` (for
`n ≥ 1`). -/
def log10Nat : Nat → Nat → Nat
  | 0, _ => 0
  | f + 1, n => if n < 10 then 0 else log10Nat f (n / 10) + 1

/-- The decimal exponent of a positive rational: the `e` with
`10^e ≤ q < 10^(e+1)`. -/
def qExp10 (q : ℚ) : ℤ :=
  if 1 ≤ q then (log10Nat 256 (⌊q⌋).toNat : ℤ)
  else
    let n := q.num.toNat
    let d := q.den
    let k := log10Nat 256 (d / n)
    Int.neg ((if d ≤ n * 10 ^ k then k else k + 1 : Nat) : ℤ)

/-- `Number.prototype.toExponential(4)` on a nonzero exact rational. -/
def toExponential4 (q : ℚ) : String :=
  let sign := if q < 0 then "-" else ""
  let a := |q|
  let e := qExp10 a
  let scaled : ℤ := ⌊a * (10 : ℚ) ^ (4 - e) + 1 / 2⌋
  let p : ℤ × ℤ := if 100000 ≤ scaled then (scaled / 10, e + 1) else (scaled, e)
  let digs := toString p.1.natAbs
  let esign := if p.2 < 0 then "-" else "+"
  sign ++ digs.take 1 ++ "." ++ digs.drop 1 ++ "e" ++ esign ++ toString p.2.natAbs

/-- `formatNumber(num, padWidth)`: literal strings for non-finite values,
scientific notation with 4 decimals outside `[1e-6, 1e9)`, otherwise fixed
precision scaled by magnitude.  The source's final `replace(/\.$/, "")` is a
no-op since the decimal count is always positive. -/
def formatNumber (num : JSNum) (padWidth : Nat) : String :=
  let str :=
    match num with
    | .nan => "NaN"
    | .inf => "Infinity"
    | .ninf => "-Infinity"
    | .fin q =>
      if q = 0 then "0"
      else if |q| < 1 / 10 ^ 6 ∨ (10 : ℚ) ^ 9 ≤ |q| then toExponential4 q
      else
        let d : Nat :=
          if 1000 ≤ |q| then 1
          else if 100 ≤ |q| then 2
          else if 10 ≤ |q| then 3
          else if 1 ≤ |q| then 4
          else if 1 / 100 ≤ |q| then 5
          else 6
        toFixedQ d q
  if 0 < padWidth then padStart str padWidth else str

/-- `formatCurrencyAmount(value, fixedDecimals)`: round to 2 decimals and print
with 2 decimals, optionally stripping trailing zeros; non-finite values go
through `formatNumber`. -/
def formatCurrencyAmount (value : JSNum) (fixedDecimals : Bool) : String :=
  match value with
  | .fin q =>
    if fixedDecimals then toFixedQ 2 (roundQ q)
    else stripTrailingZeros (toFixedQ 2 (roundQ q))
  | x => formatNumber x 0

/-- `formatScalarAmount(value)`: 6 decimals with `|value| < 1e-12` squashed to
zero and trailing zeros stripped; non-finite values through `formatNumber`. -/
def formatScalarAmount (value : JSNum) : String :=
  match value with
  | .fin q => stripTrailingZeros (toFixedQ 6 (if |q| < 1 / 10 ^ 12 then 0 else q))
  | x => formatNumber x 0

/-- `BASE_CURRENCY_TOKEN`. -/
def BASE_CURRENCY_TOKEN : String := "__base__"

/-- ASCII lowercasing, JS `toLowerCase` on the identifiers involved. -/
def toLowerStr (s : String) : String := String.mk (s.data.map Char.toLower)

/-- A currency-pipeline literal: a scalar or a money amount tagged with a
lowercase currency code. -/
inductive CLit where
  | scalar (value : JSNum)
  | money (value : JSNum) (currency : String)
deriving DecidableEq

/-- The `value` field of a literal. -/
def CLit.value : CLit → JSNum
  | .scalar v => v
  | .money v _ => v

/-- `createScalarLiteral`. -/
def createScalarLiteral (value : JSNum) : CLit := .scalar value

/-- `createMoneyLiteral` (lowercases the currency). -/
def createMoneyLiteral (value : JSNum) (currency : String) : CLit :=
  .money value (toLowerStr currency)

/-- A currency AST node: literal, the post-conversion `base` placeholder,
unary or binary application. -/
inductive CNode where
  | lit (l : CLit)
  | base
  | unary (operator : String) (value : CNode)
  | binary (operator : String) (left right : CNode)
deriving DecidableEq

/-- Node count, used as reduction-loop fuel. -/
def astSize : CNode → Nat
  | .lit _ => 1
  | .base => 1
  | .unary _ v => 1 + astSize v
  | .binary _ l r => 1 + astSize l + astSize r

/-- A currency-lexer token (each carries its raw text for error messages). -/
inductive CTok where
  | num (value : ℚ) (raw : String)
  | money (value : ℚ) (currency : String) (raw : String)
  | ident (value : String) (raw : String)
  | toKw (raw : String)
  | op (value : String) (raw : String)
deriving DecidableEq

/-- The raw text of a token (`token.raw` in the source; always present in the
model, so the `?? token.type` fallback is not needed). -/
def CTok.raw : CTok → String
  | .num _ r => r
  | .money _ _ r => r
  | .ident _ r => r
  | .toKw r => r
  | .op _ r => r

/-- Split a leading run of characters satisfying `p`. -/
def takeWhileP (p : Char → Bool) : List Char → List Char × List Char
  | [] => ([], [])
  | c :: cs =>
    if p c then
      let r := takeWhileP p cs
      (c :: r.1, r.2)
    else ([], c :: cs)

/-- Identifier characters `[A-Za-z_]`. -/
def isIdentChar (c : Char) : Bool := c.isAlpha || c = '_'

/-- The currency-lexer loop (`lexCurrencyExpression`).  A number may carry a
trailing dot with no fraction digits (`5.`), and a number immediately followed
by letters becomes a money token with the lowercased letters as currency. -/
def lexCurrencyGo : Nat → List Char → Except String (List CTok)
  | 0, _ => .error "lexer fuel exhausted"
  | _, [] => .ok []
  | f + 1, c :: cs =>
    if c.isWhitespace then lexCurrencyGo f cs
    else if c.isDigit then
      let intPart := takeWhileP Char.isDigit (c :: cs)
      let numFrac : List Char × List Char × List Char :=
        match intPart.2 with
        | '.' :: r2 =>
          let fracPart := takeWhileP Char.isDigit r2
          (intPart.1 ++ '.' :: fracPart.1, fracPart.1, fracPart.2)
        | r => (intPart.1, [], r)
      let numberRaw := numFrac.1
      let value := parseFloatDigits intPart.1 numFrac.2.1
      let suf := takeWhileP Char.isAlpha numFrac.2.2
      if suf.1 = [] then do
        let ts ← lexCurrencyGo f numFrac.2.2
        .ok (CTok.num value (String.mk numberRaw) :: ts)
      else do
        let ts ← lexCurrencyGo f suf.2
        .ok (CTok.money value (toLowerStr (String.mk suf.1))
          (String.mk (numberRaw ++ suf.1)) :: ts)
    else if isIdentChar c then
      let idp := takeWhileP isIdentChar (c :: cs)
      let raw := String.mk idp.1
      let lowered := toLowerStr raw
      if lowered = "to" then do
        let ts ← lexCurrencyGo f idp.2
        .ok (CTok.toKw raw :: ts)
      else do
        let ts ← lexCurrencyGo f idp.2
        .ok (CTok.ident lowered raw :: ts)
    else if c ∈ ['+', '-', '*', '/', '^', '(', ')', '~'] then do
      let ts ← lexCurrencyGo f cs
      .ok (CTok.op (String.mk [c]) (String.mk [c]) :: ts)
    else .error ("Syntax Error: Unsupported character '" ++ String.mk [c] ++ "' in expression")

/-- `lexCurrencyExpression`. -/
def lexCurrencyExpression (input : String) : Except String (List CTok) :=
  lexCurrencyGo (input.data.length + 1) input.data

/-- The per-token rendering of `formatTokenSequence`. -/
def ctokDisplay : CTok → String
  | .money v c _ => formatCurrencyAmount (JSNum.fin v) false ++ c
  | .num v _ => formatScalarAmount (JSNum.fin v)
  | .ident v _ => v
  | .op v _ => v
  | .toKw _ => "to"

/-- The six arithmetic operator characters of the cleanup regexes. -/
def isOpChar6 (c : Char) : Bool := c ∈ ['+', '-', '*', '/', '^', '~']

/-- The `replace(/\(\s+/g, "(")` pass. -/
def collapseOpenParen : Nat → List Char → List Char
  | 0, cs => cs
  | _, [] => []
  | f + 1, c :: cs =>
    if c = '(' then c :: collapseOpenParen f (cs.dropWhile Char.isWhitespace)
    else c :: collapseOpenParen f cs

/-- The `replace(/\s+\)/g, ")")` pass. -/
def collapseCloseParen : Nat → List Char → List Char
  | 0, cs => cs
  | _, [] => []
  | f + 1, c :: cs =>
    if c.isWhitespace then
      match cs.dropWhile Char.isWhitespace with
      | ')' :: r => ')' :: collapseCloseParen f r
      | _ => c :: collapseCloseParen f cs
    else c :: collapseCloseParen f cs

/-- The ``replace(/\s+([+\-*/^~])/g, " $1")`` pass. -/
def collapseBeforeOp : Nat → List Char → List Char
  | 0, cs => cs
  | _, [] => []
  | f + 1, c :: cs =>
    if c.isWhitespace then
      match cs.dropWhile Char.isWhitespace with
      | d :: r =>
        if isOpChar6 d then ' ' :: d :: collapseBeforeOp f r
        else c :: collapseBeforeOp f cs
      | [] => c :: collapseBeforeOp f cs
    else c :: collapseBeforeOp f cs

/-- The ``replace(/([+\-*/^~])\s+/g, "$1 ")`` pass. -/
def collapseAfterOp : Nat → List Char → List Char
  | 0, cs => cs
  | _, [] => []
  | f + 1, c :: cs =>
    if isOpChar6 c then
      match cs with
      | d :: _ =>
        if d.isWhitespace then c :: ' ' :: collapseAfterOp f (cs.dropWhile Char.isWhitespace)
        else c :: collapseAfterOp f cs
      | [] => [c]
    else c :: collapseAfterOp f cs

/-- JS `String.prototype.trim`, on the character list (the core `String.trim`
does not reduce by kernel computation). -/
def strTrim (s : String) : String :=
  String.mk (((s.data.dropWhile Char.isWhitespace).reverse.dropWhile Char.isWhitespace).reverse)

/-- `formatTokenSequence`: render tokens joined by spaces, then tighten
parentheses and operator spacing and trim. -/
def formatTokenSequence (tokens : List CTok) : String :=
  let raw := String.intercalate " " (tokens.map ctokDisplay)
  let n := raw.data.length + 1
  strTrim (String.mk (collapseAfterOp n (collapseBeforeOp n
    (collapseCloseParen n (collapseOpenParen n raw.data)))))

/-- `findTopLevelToToken`: the index of the first `to` keyword at parenthesis
depth 0 (`none` models the source's `-1`). -/
def findTopLevelToGo : List CTok → Nat → Int → Option Nat
  | [], _, _ => none
  | t :: rest, i, depth =>
    match t with
    | .op "(" _ => findTopLevelToGo rest (i + 1) (depth + 1)
    | .op ")" _ => findTopLevelToGo rest (i + 1) (depth - 1)
    | .toKw _ => if depth = 0 then some i else findTopLevelToGo rest (i + 1) depth
    | _ => findTopLevelToGo rest (i + 1) depth

/-- `findTopLevelToToken`. -/
def findTopLevelToToken (tokens : List CTok) : Option Nat :=
  findTopLevelToGo tokens 0 0

/-- The recursive-descent currency parser (`parseCurrencyExpressionTokens`'s
inner functions), as a single fuelled function.  `mode` selects the grammar
level: 0 `parsePrimary`, 1 `parseUnary`, 2/3 `parseRange` and its loop,
4/5 `parsePower`, 6/7 `parseMulDiv`, 8/9 `parseAddSub`; `acc` is the
accumulated left operand of a loop mode.  Every call decrements fuel; the
entry point supplies enough for any input. -/
def parseCTokens (allowBase allowSuffix : Bool) :
    Nat → Nat → Option CNode → List CTok → Except String (CNode × List CTok)
  | 0, _, _, _ => .error "parser fuel exhausted"
  | f + 1, 0, _, ts =>
    match ts with
    | [] => .error "Unexpected end of expression"
    | CTok.op "(" _ :: rest => do
      let p ← parseCTokens allowBase allowSuffix f 8 none rest
      match p.2 with
      | CTok.op ")" _ :: rest2 =>
        match rest2 with
        | CTok.ident v _ :: rest3 =>
          if allowSuffix && v ≠ BASE_CURRENCY_TOKEN then
            .ok (CNode.binary "*" p.1 (CNode.lit (createMoneyLiteral (JSNum.fin 1) v)), rest3)
          else .ok (p.1, rest2)
        | _ => .ok (p.1, rest2)
      | _ => .error "Mismatched parentheses in expression"
    | CTok.money v c _ :: rest => .ok (CNode.lit (createMoneyLiteral (JSNum.fin v) c), rest)
    | CTok.num v _ :: rest =>
      match rest with
      | CTok.ident i _ :: rest2 =>
        if allowSuffix && i ≠ BASE_CURRENCY_TOKEN then
          .ok (CNode.lit (createMoneyLiteral (JSNum.fin v) i), rest2)
        else .ok (CNode.lit (createScalarLiteral (JSNum.fin v)), rest)
      | _ => .ok (CNode.lit (createScalarLiteral (JSNum.fin v)), rest)
    | CTok.ident v _ :: rest =>
      if allowBase && v = BASE_CURRENCY_TOKEN then .ok (CNode.base, rest)
      else .error ("Unexpected identifier '" ++ v ++ "'")
    | t :: _ => .error ("Unexpected token '" ++ t.raw ++ "'")
  | f + 1, 1, _, ts =>
    match ts with
    | CTok.op "-" _ :: rest => do
      let p ← parseCTokens allowBase allowSuffix f 1 none rest
      .ok (CNode.unary "-" p.1, p.2)
    | _ => parseCTokens allowBase allowSuffix f 0 none ts
  | f + 1, 2, _, ts => do
    let p ← parseCTokens allowBase allowSuffix f 1 none ts
    parseCTokens allowBase allowSuffix f 3 (some p.1) p.2
  | f + 1, 3, acc, ts =>
    match ts with
    | CTok.op "~" _ :: rest => do
      let p ← parseCTokens allowBase allowSuffix f 1 none rest
      parseCTokens allowBase allowSuffix f 3
        (some (CNode.binary "~" (acc.getD CNode.base) p.1)) p.2
    | _ => .ok (acc.getD CNode.base, ts)
  | f + 1, 4, _, ts => do
    let p ← parseCTokens allowBase allowSuffix f 2 none ts
    parseCTokens allowBase allowSuffix f 5 (some p.1) p.2
  | f + 1, 5, acc, ts =>
    match ts with
    | CTok.op "^" _ :: rest => do
      let p ← parseCTokens allowBase allowSuffix f 2 none rest
      parseCTokens allowBase allowSuffix f 5
        (some (CNode.binary "^" (acc.getD CNode.base) p.1)) p.2
    | _ => .ok (acc.getD CNode.base, ts)
  | f + 1, 6, _, ts => do
    let p ← parseCTokens allowBase allowSuffix f 4 none ts
    parseCTokens allowBase allowSuffix f 7 (some p.1) p.2
  | f + 1, 7, acc, ts =>
    match ts with
    | CTok.op "*" _ :: rest => do
      let p ← parseCTokens allowBase allowSuffix f 4 none rest
      parseCTokens allowBase allowSuffix f 7
        (some (CNode.binary "*" (acc.getD CNode.base) p.1)) p.2
    | CTok.op "/" _ :: rest => do
      let p ← parseCTokens allowBase allowSuffix f 4 none rest
      parseCTokens allowBase allowSuffix f 7
        (some (CNode.binary "/" (acc.getD CNode.base) p.1)) p.2
    | _ => .ok (acc.getD CNode.base, ts)
  | f + 1, 8, _, ts => do
    let p ← parseCTokens allowBase allowSuffix f 6 none ts
    parseCTokens allowBase allowSuffix f 9 (some p.1) p.2
  | f + 1, 9, acc, ts =>
    match ts with
    | CTok.op "+" _ :: rest => do
      let p ← parseCTokens allowBase allowSuffix f 6 none rest
      parseCTokens allowBase allowSuffix f 9
        (some (CNode.binary "+" (acc.getD CNode.base) p.1)) p.2
    | CTok.op "-" _ :: rest => do
      let p ← parseCTokens allowBase allowSuffix f 6 none rest
      parseCTokens allowBase allowSuffix f 9
        (some (CNode.binary "-" (acc.getD CNode.base) p.1)) p.2
    | _ => .ok (acc.getD CNode.base, ts)
  | _ + 1, _, _, _ => .error "invalid parser mode"

/-- `parseCurrencyExpressionTokens`: parse the whole token list, failing on a
trailing token. -/
def parseCurrencyExpressionTokens (tokens : List CTok) (allowBase allowSuffix : Bool) :
    Except String CNode := do
  let p ← parseCTokens allowBase allowSuffix (16 * (tokens.length + 1)) 8 none tokens
  match p.2 with
  | [] => .ok p.1
  | t :: _ => .error ("Unexpected token '" ++ t.raw ++ "'")

/-- The inner map of a rate map: currency code to positive rate, insertion
ordered. -/
abbrev RateTargets := List (String × ℚ)

/-- A JS rate object: currency code to its targets map, insertion ordered. -/
abbrev RateMap := List (String × RateTargets)

/-- JS property read on a string-keyed object. -/
def lookupA {α : Type} (m : List (String × α)) (k : String) : Option α :=
  (m.find? fun p => p.1 == k).map Prod.snd

/-- JS property write: update in place (keeping position) or append. -/
def setA {α : Type} (m : List (String × α)) (k : String) (v : α) : List (String × α) :=
  match m with
  | [] => [(k, v)]
  | (k', v') :: rest => if k' == k then (k, v) :: rest else (k', v') :: setA rest k v

/-- Nested read `rates[a]?.[b]`. -/
def innerGet (m : RateMap) (a b : String) : Option ℚ :=
  (lookupA m a).bind fun t => lookupA t b

/-- `DEFAULT_CURRENCY_RATES` (`{eur: {pln: 4.22}, pln: {eur: 1/4.22}}`; the
reciprocal is exact in the model). -/
def DEFAULT_CURRENCY_RATES : RateMap :=
  [("eur", [("pln", 211 / 50)]), ("pln", [("eur", 50 / 211)])]

/-- The `addRate` helper of `buildCurrencyRateMap`: skip empty keys and
non-positive rates (the `typeof`/`isFinite` guards cannot fail in the model),
lowercase, insert. -/
def addRate (m : RateMap) (src dst : String) (rate : ℚ) : RateMap :=
  if src = "" ∨ dst = "" ∨ rate ≤ 0 then m
  else
    let srcKey := toLowerStr src
    let dstKey := toLowerStr dst
    setA m srcKey (setA ((lookupA m srcKey).getD []) dstKey rate)

/-- The `addRateSet` helper: fold `addRate` over a nested rate object in
property order. -/
def addRateSet (m : RateMap) (rateSet : RateMap) : RateMap :=
  rateSet.foldl (fun acc p => p.2.foldl (fun acc2 q => addRate acc2 p.1 q.1 q.2) acc) m

/-- Unguarded nested write `map[src][dst] = rate` (used by the reciprocal
mirroring pass). -/
def setRate (m : RateMap) (src dst : String) (rate : ℚ) : RateMap :=
  setA m src (setA ((lookupA m src).getD []) dst rate)

/-- The reciprocal-mirroring pass of `buildCurrencyRateMap`: iterate over the
snapshot of top-level keys, reading each key's current targets (so writes to a
later key are seen, as with JS `Object.entries` inside the loop) and writing
`map[to][from] = 1/rate`. -/
def mirrorRates : List String → RateMap → RateMap
  | [], m => m
  | k :: ks, m =>
    let targets := (lookupA m k).getD []
    mirrorRates ks (targets.foldl (fun acc p => setRate acc p.1 k (1 / p.2)) m)

/-- `buildCurrencyRateMap`: defaults overlaid with caller rates, then every
entry mirrored as its reciprocal. -/
def buildCurrencyRateMap (customRates : Option RateMap) : RateMap :=
  let m := addRateSet [] DEFAULT_CURRENCY_RATES
  let m := match customRates with
    | some c => addRateSet m c
    | none => m
  mirrorRates (m.map Prod.fst) m

/-- Every currency code occurring in a rate map (outer and inner keys),
deduplicated: the universe of the BFS, used for its fuel bound. -/
def allCurrencies (rates : RateMap) : List String :=
  (rates.map Prod.fst ++ (rates.map fun p => p.2.map Prod.fst).flatten).dedup

/-- One neighbor scan of the BFS of `getCurrencyRate`: skip non-positive rates
and visited currencies, return the cumulative rate on reaching the target,
otherwise mark visited and enqueue. -/
def bfsScan (dst : String) (cum : ℚ) :
    RateTargets → List String → List (String × ℚ) →
      Option ℚ × List String × List (String × ℚ)
  | [], vis, q => (none, vis, q)
  | (nc, r) :: rest, vis, q =>
    if r ≤ 0 then bfsScan dst cum rest vis q
    else if nc ∈ vis then bfsScan dst cum rest vis q
    else if nc = dst then (some (cum * r), vis, q)
    else bfsScan dst cum rest (nc :: vis) (q ++ [(nc, cum * r)])

/-- The BFS while-loop of `getCurrencyRate`.  Each iteration pops one queue
entry; the entry point supplies fuel `|allCurrencies| + 1`, which never runs
out before the queue empties (every enqueue marks a fresh currency visited). -/
def bfsGo (rates : RateMap) (dst : String) :
    Nat → List (String × ℚ) → List String → Option ℚ
  | 0, _, _ => none
  | _, [], _ => none
  | f + 1, (c, cum) :: qrest, vis =>
    match bfsScan dst cum ((lookupA rates c).getD []) vis qrest with
    | (some r, _, _) => some r
    | (none, vis', q') => bfsGo rates dst f q' vis'

/-- `getCurrencyRate(from, to, rates)`: 1 for equal (lowercased) codes, else a
direct rate, else the reciprocal of the reverse rate, else a BFS over the rate
graph, else the missing-path error naming both currencies. -/
def getCurrencyRate (fromCurrency toCurrency : String) (rates : RateMap) : Except String ℚ :=
  let src := toLowerStr fromCurrency
  let dst := toLowerStr toCurrency
  if src = dst then .ok 1
  else
    match innerGet rates src dst with
    | some r => .ok r
    | none =>
      match innerGet rates dst src with
      | some r => .ok (1 / r)
      | none =>
        match bfsGo rates dst ((allCurrencies rates).length + 1) [(src, 1)] [src] with
        | some r => .ok r
        | none =>
          .error ("Missing exchange rate path for " ++ fromCurrency ++ "->" ++ toCurrency)

/-- `convertLiteralCurrency`: money only; identity (up to lowercasing) on the
same currency, otherwise multiply by the resolved rate and round to 2
decimals.  The source's non-literal check is made unreachable by the types. -/
def convertLiteralCurrency (literal : CLit) (targetCurrency : String) (rates : RateMap) :
    Except String CLit :=
  match literal with
  | .scalar _ => .error ("Cannot convert scalar value to " ++ targetCurrency)
  | .money v c =>
    let target := toLowerStr targetCurrency
    if c = target then .ok (createMoneyLiteral v target)
    else do
      let rate ← getCurrencyRate c target rates
      .ok (createMoneyLiteral (roundCurrencyValue (jsMul v (JSNum.fin rate))) target)

/-- `evaluateCurrencyUnary` on a literal operand node. -/
def evaluateCurrencyUnary (operator : String) (v : CNode) : Except String CLit :=
  if operator ≠ "-" then .error ("Unsupported unary operator '" ++ operator ++ "'")
  else
    match v with
    | CNode.lit (.money val cur) => .ok (createMoneyLiteral (roundCurrencyValue (jsNeg val)) cur)
    | CNode.lit (.scalar val) => .ok (createScalarLiteral (jsNeg val))
    | _ => .error "Unary operator requires literal operand"

/-- `evaluateCurrencyBinary`: the single-value reduction rules by operator and
operand kind (§4.5a of the spec). -/
def evaluateCurrencyBinary (P : ℚ → ℚ → ℚ) (op : String) (left right : CLit)
    (rates : RateMap) : Except String CLit :=
  if op = "~" then
    match left, right with
    | .scalar a, .scalar b => .ok (createScalarLiteral (jsDiv (jsAdd a b) (fin 2)))
    | _, _ => .error "Range operator '~' supports scalar values only"
  else if op = "+" ∨ op = "-" then
    match left, right with
    | .scalar a, .scalar b =>
      .ok (createScalarLiteral (if op = "+" then jsAdd a b else jsSub a b))
    | .money a ca, .money b cb => do
      let r ←
        if cb = ca then Except.ok (CLit.money b cb)
        else convertLiteralCurrency (.money b cb) ca rates
      .ok (createMoneyLiteral
        (roundCurrencyValue (if op = "+" then jsAdd a r.value else jsSub a r.value)) ca)
    | _, _ =>
      .error ("Cannot " ++ (if op = "+" then "add" else "subtract") ++
        " scalar and currency values")
  else if op = "*" then
    match left, right with
    | .scalar a, .scalar b => .ok (createScalarLiteral (jsMul a b))
    | .money a ca, .scalar b => .ok (createMoneyLiteral (roundCurrencyValue (jsMul a b)) ca)
    | .scalar a, .money b cb => .ok (createMoneyLiteral (roundCurrencyValue (jsMul a b)) cb)
    | _, _ => .error "Multiplying two currency values is not supported"
  else if op = "/" then
    match left, right with
    | .scalar a, .scalar b => .ok (createScalarLiteral (jsDivGuard a b))
    | .money a ca, .scalar b =>
      .ok (createMoneyLiteral (roundCurrencyValue (jsDivGuard a b)) ca)
    | .money a _, .money b _ => .ok (createScalarLiteral (jsDivGuard a b))
    | _, _ => .error "Cannot divide scalar by a currency value"
  else if op = "^" then
    match left, right with
    | .scalar a, .scalar b => .ok (createScalarLiteral (jsPow P a b))
    | .money a ca, .scalar b =>
      .ok (createMoneyLiteral (roundCurrencyValue (jsPow P a b)) ca)
    | _, _ => .error "Power is supported for scalar^scalar or money^scalar only"
  else .error ("Unsupported operator '" ++ op ++ "'")

/-- An uncertainty-propagating currency value: kind tag, mean, bounds,
optional samples, and the currency code on money. -/
inductive CVal where
  | scalar (mean min max : JSNum) (samples : Option (List JSNum))
  | money (mean min max : JSNum) (samples : Option (List JSNum)) (currency : String)
deriving DecidableEq

/-- The `mean` field. -/
def CVal.meanOf : CVal → JSNum
  | .scalar m _ _ _ => m
  | .money m _ _ _ _ => m

/-- The `min` field. -/
def CVal.minOf : CVal → JSNum
  | .scalar _ m _ _ => m
  | .money _ m _ _ _ => m

/-- The `max` field. -/
def CVal.maxOf : CVal → JSNum
  | .scalar _ _ m _ => m
  | .money _ _ m _ _ => m

/-- The `samples` field. -/
def CVal.sampOf : CVal → Option (List JSNum)
  | .scalar _ _ _ s => s
  | .money _ _ _ s _ => s

/-- The `currency` field (money only). -/
def CVal.curOf : CVal → Option String
  | .scalar _ _ _ _ => none
  | .money _ _ _ _ c => some c

/-- `createCurrencyValueFromLiteral`: a degenerate value with no samples. -/
def createCurrencyValueFromLiteral : CLit → CVal
  | .money v c => .money v v v none c
  | .scalar v => .scalar v v v none

/-- `convertCurrencyValue`: convert a money value's mean, bounds (reordered
with `Math.min`/`Math.max` after conversion) and samples, rounding each to 2
decimals; identity on the same currency (the source's defensive clone is the
value itself in the pure model). -/
def convertCurrencyValue (value : CVal) (targetCurrency : String) (rates : RateMap) :
    Except String CVal :=
  match value with
  | .scalar _ _ _ _ => .error ("Cannot convert scalar value to " ++ targetCurrency)
  | .money m mn mx s c =>
    let target := toLowerStr targetCurrency
    if c = target then .ok (.money m mn mx s c)
    else do
      let rate ← getCurrencyRate c target rates
      let conv := fun a => roundCurrencyValue (jsMul a (JSNum.fin rate))
      .ok (.money (conv m) (jsMin (conv mn) (conv mx)) (jsMax (conv mn) (conv mx))
        (s.map (List.map conv)) target)

/-- `getMulBounds`. -/
def getMulBounds (aMin aMax bMin bMax : JSNum) : JSNum × JSNum :=
  (jsMin4 (jsMul aMin bMin) (jsMul aMin bMax) (jsMul aMax bMin) (jsMul aMax bMax),
   jsMax4 (jsMul aMin bMin) (jsMul aMin bMax) (jsMul aMax bMin) (jsMul aMax bMax))

/-- `getPowBounds`. -/
def getPowBounds (P : ℚ → ℚ → ℚ) (aMin aMax bMin bMax : JSNum) : JSNum × JSNum :=
  (jsMin4 (jsPow P aMin bMin) (jsPow P aMin bMax) (jsPow P aMax bMin) (jsPow P aMax bMax),
   jsMax4 (jsPow P aMin bMin) (jsPow P aMin bMax) (jsPow P aMax bMin) (jsPow P aMax bMax))

/-- `getDivBounds`: `NaN` interval for the degenerate zero divisor, `[0,0]`
for a degenerate zero numerator over a zero-straddling divisor, the full line
otherwise in the straddling case, else the corner quotients. -/
def getDivBounds (aMin aMax bMin bMax : JSNum) : JSNum × JSNum :=
  if jsLe bMin (fin 0) && jsLe (fin 0) bMax then
    if jsEqB bMin (fin 0) && jsEqB bMax (fin 0) then (JSNum.nan, JSNum.nan)
    else if jsEqB aMin (fin 0) && jsEqB aMax (fin 0) then (fin 0, fin 0)
    else (JSNum.ninf, JSNum.inf)
  else
    (jsMin4 (jsDiv aMin bMin) (jsDiv aMin bMax) (jsDiv aMax bMin) (jsDiv aMax bMax),
     jsMax4 (jsDiv aMin bMin) (jsDiv aMin bMax) (jsDiv aMax bMin) (jsDiv aMax bMax))

/-- `evaluateCurrencyBinaryWithUncertainty`: the uncertainty-propagating
operator semantics (§4.5b), threading the Gaussian draw counter (only `~`
consumes draws). -/
def evaluateCurrencyBinaryWithUncertainty (h : Host) (operator : String)
    (left right : CVal) (rates : RateMap) (sampleCount : Nat) (ctr : Nat) :
    Except String (CVal × Nat) :=
  if operator = "~" then
    match left, right with
    | .scalar lm _ _ ls, .scalar rm _ _ rs =>
      if ls ≠ none ∨ rs ≠ none then .error "Operands for '~' must be exact scalar values"
      else
        let mean := jsDiv (jsAdd lm rm) (fin 2)
        let stdDev := jsDiv (jsAbs (jsSub rm lm)) (fin STDDEV_DIVISOR)
        let p := generateSamples h mean stdDev sampleCount ctr
        .ok (.scalar mean (jsMin lm rm) (jsMax lm rm) (some p.1), p.2)
    | _, _ => .error "Range operator '~' supports scalar values only"
  else if operator = "+" ∨ operator = "-" then
    match left, right with
    | .scalar lm lmin lmax ls, .scalar rm rmin rmax rs => do
      let mean := if operator = "+" then jsAdd lm rm else jsSub lm rm
      let mn := if operator = "+" then jsAdd lmin rmin else jsSub lmin rmax
      let mx := if operator = "+" then jsAdd lmax rmax else jsSub lmax rmin
      let samples ← operateSamples h.pow (sampOrNum ls lm) (sampOrNum rs rm)
        operator sampleCount
      .ok (.scalar mean mn mx samples, ctr)
    | .money lm lmin lmax ls lc, .money rm rmin rmax rs rc => do
      let r ←
        if rc = lc then Except.ok (CVal.money rm rmin rmax rs rc)
        else convertCurrencyValue (.money rm rmin rmax rs rc) lc rates
      let meanRaw := if operator = "+" then jsAdd lm r.meanOf else jsSub lm r.meanOf
      let minRaw := if operator = "+" then jsAdd lmin r.minOf else jsSub lmin r.maxOf
      let maxRaw := if operator = "+" then jsAdd lmax r.maxOf else jsSub lmax r.minOf
      let samples ← operateSamples h.pow (sampOrNum ls lm) (sampOrNum r.sampOf r.meanOf)
        operator sampleCount
      .ok (.money (roundCurrencyValue meanRaw) (roundCurrencyValue (jsMin minRaw maxRaw))
        (roundCurrencyValue (jsMax minRaw maxRaw))
        (samples.map (List.map roundCurrencyValue)) lc, ctr)
    | _, _ =>
      .error ("Cannot " ++ (if operator = "+" then "add" else "subtract") ++
        " scalar and currency values")
  else if operator = "*" then
    match left, right with
    | .scalar lm lmin lmax ls, .scalar rm rmin rmax rs => do
      let bounds := getMulBounds lmin lmax rmin rmax
      let samples ← operateSamples h.pow (sampOrNum ls lm) (sampOrNum rs rm)
        operator sampleCount
      .ok (.scalar (jsMul lm rm) bounds.1 bounds.2 samples, ctr)
    | .money lm lmin lmax ls lc, .scalar rm rmin rmax rs => do
      let bounds := getMulBounds lmin lmax rmin rmax
      let samples ← operateSamples h.pow (sampOrNum ls lm) (sampOrNum rs rm)
        operator sampleCount
      .ok (.money (roundCurrencyValue (jsMul lm rm)) (roundCurrencyValue bounds.1)
        (roundCurrencyValue bounds.2) (samples.map (List.map roundCurrencyValue)) lc, ctr)
    | .scalar lm lmin lmax ls, .money rm rmin rmax rs rc => do
      let bounds := getMulBounds rmin rmax lmin lmax
      let samples ← operateSamples h.pow (sampOrNum rs rm) (sampOrNum ls lm)
        operator sampleCount
      .ok (.money (roundCurrencyValue (jsMul rm lm)) (roundCurrencyValue bounds.1)
        (roundCurrencyValue bounds.2) (samples.map (List.map roundCurrencyValue)) rc, ctr)
    | _, _ => .error "Multiplying two currency values is not supported"
  else if operator = "/" then
    match left, right with
    | .scalar lm lmin lmax ls, .scalar rm rmin rmax rs => do
      let bounds := getDivBounds lmin lmax rmin rmax
      let samples ← operateSamples h.pow (sampOrNum ls lm) (sampOrNum rs rm)
        operator sampleCount
      .ok (.scalar (jsDivGuard lm rm) bounds.1 bounds.2 samples, ctr)
    | .money lm lmin lmax ls lc, .scalar rm rmin rmax rs => do
      let bounds := getDivBounds lmin lmax rmin rmax
      let samples ← operateSamples h.pow (sampOrNum ls lm) (sampOrNum rs rm)
        operator sampleCount
      .ok (.money (roundCurrencyValue (jsDivGuard lm rm)) (roundCurrencyValue bounds.1)
        (roundCurrencyValue bounds.2) (samples.map (List.map roundCurrencyValue)) lc, ctr)
    | .money lm lmin lmax ls _, .money rm rmin rmax rs _ => do
      let bounds := getDivBounds lmin lmax rmin rmax
      let samples ← operateSamples h.pow (sampOrNum ls lm) (sampOrNum rs rm)
        operator sampleCount
      .ok (.scalar (jsDivGuard lm rm) bounds.1 bounds.2 samples, ctr)
    | _, _ => .error "Cannot divide scalar by a currency value"
  else if operator = "^" then
    match left, right with
    | .scalar lm lmin lmax ls, .scalar rm rmin rmax rs => do
      let bounds := getPowBounds h.pow lmin lmax rmin rmax
      let samples ← operateSamples h.pow (sampOrNum ls lm) (sampOrNum rs rm)
        operator sampleCount
      .ok (.scalar (jsPow h.pow lm rm) bounds.1 bounds.2 samples, ctr)
    | .money lm lmin lmax ls lc, .scalar rm rmin rmax rs => do
      let bounds := getPowBounds h.pow lmin lmax rmin rmax
      let samples ← operateSamples h.pow (sampOrNum ls lm) (sampOrNum rs rm)
        operator sampleCount
      .ok (.money (roundCurrencyValue (jsPow h.pow lm rm)) (roundCurrencyValue bounds.1)
        (roundCurrencyValue bounds.2) (samples.map (List.map roundCurrencyValue)) lc, ctr)
    | _, _ => .error "Power is supported for scalar^scalar or money^scalar only"
  else .error ("Unsupported operator '" ++ operator ++ "'")

/-- `evaluateCurrencyAstWithUncertainty`: recursive uncertainty evaluation,
threading the draw counter left-to-right; `baseValue` replaces the `base`
placeholder. -/
def evaluateCurrencyAstWithUncertainty (h : Host) (rates : RateMap) (sampleCount : Nat) :
    CNode → Option CVal → Nat → Except String (CVal × Nat)
  | CNode.lit l, _, ctr => .ok (createCurrencyValueFromLiteral l, ctr)
  | CNode.base, baseValue, ctr =>
    match baseValue with
    | none => .error "Base token was used without a replacement value"
    | some v => .ok (v, ctr)
  | CNode.unary op v, baseValue, ctr =>
    if op ≠ "-" then .error ("Unsupported unary operator '" ++ op ++ "'")
    else do
      let p ← evaluateCurrencyAstWithUncertainty h rates sampleCount v baseValue ctr
      let value := p.1
      let mn := jsMin (jsNeg value.maxOf) (jsNeg value.minOf)
      let mx := jsMax (jsNeg value.maxOf) (jsNeg value.minOf)
      let mean := jsNeg value.meanOf
      let samples := value.sampOf.map (List.map jsNeg)
      match value with
      | .money _ _ _ _ c =>
        .ok (.money (roundCurrencyValue mean) (roundCurrencyValue mn)
          (roundCurrencyValue mx) (samples.map (List.map roundCurrencyValue)) c, p.2)
      | .scalar _ _ _ _ => .ok (.scalar mean mn mx samples, p.2)
  | CNode.binary op l r, baseValue, ctr => do
    let pl ← evaluateCurrencyAstWithUncertainty h rates sampleCount l baseValue ctr
    let pr ← evaluateCurrencyAstWithUncertainty h rates sampleCount r baseValue pl.2
    evaluateCurrencyBinaryWithUncertainty h op pl.1 pr.1 rates sampleCount pr.2

/-- `reduceCurrencyAstOneLayer`: fold the deepest fully-literal subtrees,
reporting whether anything changed. -/
def reduceCurrencyAstOneLayer (P : ℚ → ℚ → ℚ) (rates : RateMap) :
    CNode → Except String (CNode × Bool)
  | CNode.lit l => .ok (CNode.lit l, false)
  | CNode.base => .ok (CNode.base, false)
  | CNode.unary op v => do
    let rv ← reduceCurrencyAstOneLayer P rates v
    if rv.2 then .ok (CNode.unary op rv.1, true)
    else
      match rv.1 with
      | CNode.lit _ => do
        let l ← evaluateCurrencyUnary op rv.1
        .ok (CNode.lit l, true)
      | _ => .ok (CNode.unary op rv.1, false)
  | CNode.binary op l r => do
    let rl ← reduceCurrencyAstOneLayer P rates l
    let rr ← reduceCurrencyAstOneLayer P rates r
    if rl.2 ∨ rr.2 then .ok (CNode.binary op rl.1 rr.1, true)
    else
      match rl.1, rr.1 with
      | CNode.lit ll, CNode.lit rl2 => do
        let l2 ← evaluateCurrencyBinary P op ll rl2 rates
        .ok (CNode.lit l2, true)
      | _, _ => .ok (CNode.binary op rl.1 rr.1, false)

/-- `getCurrencyAstPrecedence`. -/
def getCurrencyAstPrecedence : CNode → Nat
  | CNode.unary _ _ => 5
  | CNode.binary op _ _ =>
    if op = "+" ∨ op = "-" then 1
    else if op = "*" ∨ op = "/" then 2
    else if op = "^" then 3
    else if op = "~" then 4
    else 99
  | _ => 99

/-- `formatCurrencyLiteral`. -/
def formatCurrencyLiteral : CLit → String
  | .money v c => formatCurrencyAmount v false ++ c
  | .scalar v => formatScalarAmount v

/-- `formatCurrencyAst(node, parentPrecedence, isRightChild, parentOperator)`:
render a tree with minimal parentheses. -/
def formatCurrencyAst : CNode → Nat → Bool → Option String → String
  | CNode.lit l, _, _, _ => formatCurrencyLiteral l
  | CNode.base, _, _, _ => BASE_CURRENCY_TOKEN
  | CNode.unary op v, parentPrecedence, _, _ =>
    let selfPrecedence := getCurrencyAstPrecedence (CNode.unary op v)
    let valueText := formatCurrencyAst v 0 true (some op)
    let valueText :=
      if getCurrencyAstPrecedence v < selfPrecedence then "(" ++ valueText ++ ")"
      else valueText
    let rendered := "-" ++ valueText
    if selfPrecedence < parentPrecedence then "(" ++ rendered ++ ")" else rendered
  | CNode.binary op l r, parentPrecedence, isRightChild, parentOperator =>
    let selfPrecedence := getCurrencyAstPrecedence (CNode.binary op l r)
    let leftText := formatCurrencyAst l 0 false (some op)
    let leftPrecedence := getCurrencyAstPrecedence l
    let leftText := if leftPrecedence < selfPrecedence then "(" ++ leftText ++ ")" else leftText
    let leftText :=
      if op = "^" ∧ leftPrecedence = selfPrecedence then "(" ++ leftText ++ ")" else leftText
    let rightText := formatCurrencyAst r 0 true (some op)
    let rightPrecedence := getCurrencyAstPrecedence r
    let rightText :=
      if rightPrecedence < selfPrecedence ∨
          (rightPrecedence = selfPrecedence ∧ (op = "-" ∨ op = "/" ∨ op = "^")) then
        "(" ++ rightText ++ ")"
      else rightText
    let rendered := leftText ++ " " ++ op ++ " " ++ rightText
    if selfPrecedence < parentPrecedence ∨
        (isRightChild ∧ parentOperator = some "^" ∧ selfPrecedence = parentPrecedence) then
      "(" ++ rendered ++ ")"
    else rendered

/-- `replaceBaseNode`: substitute a tree for every `base` placeholder (clones
are the values themselves in the pure model). -/
def replaceBaseNode (node : CNode) (replacement : CNode) : CNode :=
  match node with
  | CNode.base => replacement
  | CNode.lit l => CNode.lit l
  | CNode.unary op v => CNode.unary op (replaceBaseNode v replacement)
  | CNode.binary op l r =>
    CNode.binary op (replaceBaseNode l replacement) (replaceBaseNode r replacement)

/-- The reduction loop of `evaluateCurrencyExpressionWithSteps`: reduce one
layer at a time until a literal, collecting each productive pass's tree, with
the source's stuck error when a pass makes no progress.  One fuel per pass;
each productive pass shrinks the tree, so `astSize + 1` fuel never runs
out. -/
def reduceSteps (P : ℚ → ℚ → ℚ) (rates : RateMap) (stuckMsg : String) :
    Nat → CNode → Except String (List CNode × CLit)
  | 0, _ => .error "reduction fuel exhausted"
  | f + 1, node =>
    match node with
    | CNode.lit l => .ok ([], l)
    | n => do
      let p ← reduceCurrencyAstOneLayer P rates n
      if p.2 then do
        let rest ← reduceSteps P rates stuckMsg f p.1
        .ok (p.1 :: rest.1, rest.2)
      else .error stuckMsg

/-- The final `result` record of `evaluateExpressionWithSteps` (plain results
carry no `currency`/`display` fields, modelled as `none`). -/
structure EvalResult where
  mean : JSNum
  min : JSNum
  max : JSNum
  samples : Option (List JSNum)
  currency : Option String
  display : Option String
deriving DecidableEq

/-- The record returned by `evaluateExpressionWithSteps` (`result` is `none`
when the plain evaluator returns null). -/
structure StepsOut where
  isCurrencyExpression : Bool
  currency : Option String
  steps : List String
  result : Option EvalResult
deriving DecidableEq

/-- The `to`-clause analysis of `evaluateCurrencyExpressionWithSteps`: target
currency, tail tokens, and the parsed tail AST (with the `base` placeholder
prepended), when a top-level `to` exists. -/
def parseToClause (tokens : List CTok) (topIdx : Option Nat) :
    Except String (Option String × List CTok × Option CNode) :=
  match topIdx with
  | none => .ok (none, [], none)
  | some i =>
    match tokens.get? (i + 1) with
    | some (CTok.ident v _) =>
      let tailTokens := tokens.drop (i + 2)
      if tailTokens = [] then .ok (some v, [], none)
      else do
        let tailAst ← parseCurrencyExpressionTokens
          (CTok.ident BASE_CURRENCY_TOKEN BASE_CURRENCY_TOKEN :: tailTokens) true true
        .ok (some v, tailTokens, some tailAst)
    | _ => .error "Expected target currency after 'to'"

/-- Does a token list look like a currency expression: a top-level `to`, a
money token, or a number / closing paren directly followed by a currency
identifier. -/
def looksLikeCurrency (tokens : List CTok) (topIdx : Option Nat) : Bool :=
  topIdx.isSome ||
  tokens.any (fun t => match t with | CTok.money _ _ _ => true | _ => false) ||
  (tokens.zip tokens.tail).any (fun p =>
    (match p.1 with | CTok.num _ _ => true | _ => false) &&
    (match p.2 with | CTok.ident v _ => !(v == BASE_CURRENCY_TOKEN) | _ => false)) ||
  (tokens.zip tokens.tail).any (fun p =>
    (match p.1 with | CTok.op ")" _ => true | _ => false) &&
    (match p.2 with | CTok.ident v _ => !(v == BASE_CURRENCY_TOKEN) | _ => false))

/-- `evaluateCurrencyExpressionWithSteps`.  The source's number-vs-options
overload of the second argument is resolved by the callers; the model takes
the sample count and optional custom rates explicitly.  Returns `none` when
the expression does not look like a currency expression (the source's `null`
fall-through to the plain evaluator). -/
def evaluateCurrencyExpressionWithSteps (h : Host) (expression : String)
    (sampleCount : Nat) (customRates : Option RateMap) :
    Except String (Option StepsOut) := do
  let tokens ← lexCurrencyExpression expression
  let topLevelToIndex := findTopLevelToToken tokens
  let hasRangeOperator :=
    tokens.any fun t => match t with | CTok.op "~" _ => true | _ => false
  if !looksLikeCurrency tokens topLevelToIndex then .ok none
  else do
    let rates := buildCurrencyRateMap customRates
    let leftTokens := match topLevelToIndex with
      | some i => tokens.take i
      | none => tokens
    if leftTokens = [] then .error "Missing expression before currency conversion"
    else do
      let tct ← parseToClause tokens topLevelToIndex
      let targetCurrency := tct.1
      let tailTokens := tct.2.1
      let tailAst := tct.2.2
      let leftAst ← parseCurrencyExpressionTokens leftTokens false true
      let conversionSuffix := match targetCurrency with
        | some tc =>
          "to " ++ tc ++ (if tailTokens = [] then "" else " " ++ formatTokenSequence tailTokens)
        | none => ""
      let appendSuffix := fun (content : String) =>
        if conversionSuffix = "" then content else content ++ " " ++ conversionSuffix
      let red ← reduceSteps h.pow rates "Unable to simplify expression"
        (astSize leftAst + 1) leftAst
      let steps1 := appendSuffix (formatCurrencyAst leftAst 0 false none) ::
        red.1.map fun nd => appendSuffix (formatCurrencyAst nd 0 false none)
      let finSteps ← (match targetCurrency with
        | none => Except.ok (steps1, red.2)
        | some tc => do
          let conv ← convertLiteralCurrency red.2 tc rates
          match tailAst with
          | some ta => do
            let substituted := replaceBaseNode ta (CNode.lit conv)
            let red2 ← reduceSteps h.pow rates "Unable to simplify post-conversion expression"
              (astSize substituted + 1) substituted
            Except.ok (steps1 ++ formatCurrencyAst substituted 0 false none ::
              red2.1.map (fun nd => formatCurrencyAst nd 0 false none), red2.2)
          | none =>
            Except.ok (steps1 ++ [formatCurrencyAst (CNode.lit conv) 0 false none], conv))
      let steps := finSteps.1
      let finalLit := finSteps.2
      let resultCurrency := match finalLit with
        | .money _ c => some c
        | .scalar _ => none
      let sampled : Option CVal ←
        if hasRangeOperator then do
          let p1 ← evaluateCurrencyAstWithUncertainty h rates sampleCount leftAst none 0
          match targetCurrency with
          | none => pure (some p1.1)
          | some tc => do
            let cv ← convertCurrencyValue p1.1 tc rates
            match tailAst with
            | none => pure (some cv)
            | some ta => do
              let p2 ← evaluateCurrencyAstWithUncertainty h rates sampleCount ta (some cv) p1.2
              pure (some p2.1)
        else pure none
      let display := match finalLit with
        | .money v c => formatCurrencyAmount v true ++ c
        | .scalar v => formatNumber v 0
      let res : EvalResult := match sampled with
        | some sv => ⟨sv.meanOf, sv.minOf, sv.maxOf, sv.sampOf, resultCurrency, some display⟩
        | none =>
          ⟨finalLit.value, finalLit.value, finalLit.value, none, resultCurrency, some display⟩
      .ok (some ⟨true, resultCurrency, steps, some res⟩)

/-- `evaluateExpressionWithSteps`: the currency pipeline when applicable, else
the plain pipeline wrapped with `isCurrencyExpression = false` and no steps. -/
def evaluateExpressionWithSteps (h : Host) (expression : String) (sampleCount : Nat)
    (customRates : Option RateMap) : Except String StepsOut := do
  let currencyResult ← evaluateCurrencyExpressionWithSteps h expression sampleCount customRates
  match currencyResult with
  | some r => .ok r
  | none => do
    let result ← evaluateExpression expression sampleCount h
    .ok ⟨false, none, [],
      result.map fun v => ⟨v.mean, v.min, v.max, v.samples, none, none⟩⟩

/-- A fixed host (zero power approximation, zero Gaussian draws) used to
evaluate the pipeline at concrete witness inputs; no verified claim depends on
the host's values. -/
def hostZero : Host := ⟨fun _ _ => 0, fun _ => 0⟩

/-- A degenerate `UncertainValue`: point interval at the mean, no samples. -/
def Degenerate (v : UV) : Prop := v.min = v.mean ∧ v.max = v.mean ∧ v.samples = none

/-- The division interval claimed for the interval evaluator, written from the
claim's words: when the divisor interval straddles or touches zero, `[NaN,NaN]`
exactly when `bMin == 0` and `bMax == 0`, else `[0,0]` exactly when `aMin == 0`
and `aMax == 0`, else `[-Infinity, +Infinity]`; otherwise the min and max over
the four corner quotients (comparisons and equalities are the JS ones, false on
`NaN`). -/
def claimDivInterval (aMin aMax bMin bMax : JSNum) : JSNum × JSNum :=
  if jsLe bMin (fin 0) && jsLe (fin 0) bMax then
    if jsEqB bMin (fin 0) && jsEqB bMax (fin 0) then (JSNum.nan, JSNum.nan)
    else if jsEqB aMin (fin 0) && jsEqB aMax (fin 0) then (fin 0, fin 0)
    else (JSNum.ninf, JSNum.inf)
  else
    (jsMin4 (jsDiv aMin bMin) (jsDiv aMin bMax) (jsDiv aMax bMin) (jsDiv aMax bMax),
     jsMax4 (jsDiv aMin bMin) (jsDiv aMin bMax) (jsDiv aMax bMin) (jsDiv aMax bMax))

/-- A path in the rate graph from `a` to `b` along edges with positive rates
(the ones the BFS of `getCurrencyRate` traverses), whose rates multiply to
`r`. -/
inductive PathRate (rates : RateMap) : String → String → ℚ → Prop where
  | refl (a : String) : PathRate rates a a 1
  | step (a b c : String) (e r : ℚ) : innerGet rates a b = some e → 0 < e →
      PathRate rates b c r → PathRate rates a c (e * r)

/-- Reachability in the rate graph along positive edges. -/
def RateReach (rates : RateMap) (a b : String) : Prop := ∃ r, PathRate rates a b r

/-- Well-formedness of a rate map as the model of a JS object-of-objects:
each inner object has no duplicate keys (a JS object cannot). -/
def RatesWF (rates : RateMap) : Prop :=
  ∀ p ∈ rates, ((p.2.map Prod.fst).Nodup : Prop)

/-- The number of currencies of the rate graph the BFS of `getCurrencyRate`
has not yet visited: the decreasing measure showing its fuel never runs out. -/
def unvisCount (rates : RateMap) (vis : List String) : Nat :=
  ((allCurrencies rates).filter fun x => !decide (x ∈ vis)).length

/-- Whether a currency AST contains a `~` operator. -/
def containsTilde : CNode → Bool
  | .lit _ => false
  | .base => false
  | .unary _ v => containsTilde v
  | .binary op l r => op == "~" || containsTilde l || containsTilde r

/-- The samples-shape invariant of the uncertainty evaluator: samples absent,
or present with length exactly the sample count. -/
def SampLenOK (n : Nat) (v : CVal) : Prop :=
  v.sampOf = none ∨ ∃ l, v.sampOf = some l ∧ l.length = n

/-- String suffix test (for the claims about step renderings). -/
def strEndsWith (s tail : String) : Bool := tail.data.isSuffixOf s.data

/-!
Theorems.  The first group is arithmetic-level lemmas about the JS number
model; then per-claim developments.
-/

theorem jsMin_self (x : JSNum) : jsMin x x = x := by
  cases x <;> simp [jsMin, jsLe]

theorem jsMax_self (x : JSNum) : jsMax x x = x := by
  cases x <;> simp [jsMax, jsLe]

theorem jsMin4_self (x : JSNum) : jsMin4 x x x x = x := by
  rw [jsMin4, jsMin_self, jsMin_self, jsMin_self]

theorem jsMax4_self (x : JSNum) : jsMax4 x x x x = x := by
  rw [jsMax4, jsMax_self, jsMax_self, jsMax_self]

theorem jsEqB_fin_zero {x : JSNum} : jsEqB x (fin 0) = true ↔ x = fin 0 := by
  cases x <;> simp [jsEqB]

theorem straddle_fin_zero {x : JSNum} (h1 : jsLe x (fin 0) = true)
    (h2 : jsLe (fin 0) x = true) : x = fin 0 := by
  cases x with
  | nan => simp [jsLe] at h1
  | inf => simp [jsLe] at h1
  | ninf => simp [jsLe] at h2
  | fin q =>
    simp only [jsLe, decide_eq_true_eq] at h1 h2
    exact congrArg JSNum.fin (le_antisymm h1 h2)

theorem jsLe_fin_zero_refl : jsLe (fin 0) (fin 0) = true := by simp [jsLe]

theorem jsEqB_self_of_finite {x : JSNum} (h : x.isFinite = true) : jsEqB x x = true := by
  cases x <;> simp_all [JSNum.isFinite, jsEqB]

theorem jsDivGuard_of_ne {a b : JSNum} (h : b ≠ fin 0) : jsDivGuard a b = jsDiv a b := by
  simp [jsDivGuard, h]

/-- A binary arithmetic step on two degenerate operands yields a degenerate
mean/min/max triple. -/
theorem rpnBinaryTriple_degenerate (P : ℚ → ℚ → ℚ) (s : String) (a b : UV)
    (hs : s = "+" ∨ s = "-" ∨ s = "*" ∨ s = "/" ∨ s = "^")
    (ha1 : a.min = a.mean) (ha2 : a.max = a.mean)
    (hb1 : b.min = b.mean) (hb2 : b.max = b.mean) :
    ∃ t, rpnBinaryTriple P s a b = (t, t, t) := by
  rcases hs with h | h | h | h | h <;> subst h
  · exact ⟨jsAdd a.mean b.mean, by simp [rpnBinaryTriple, ha1, ha2, hb1, hb2]⟩
  · exact ⟨jsSub a.mean b.mean, by simp [rpnBinaryTriple, ha1, ha2, hb1, hb2]⟩
  · exact ⟨jsMul a.mean b.mean,
      by simp [rpnBinaryTriple, ha1, ha2, hb1, hb2, jsMin4_self, jsMax4_self]⟩
  · by_cases hstr : (jsLe b.mean (fin 0) && jsLe (fin 0) b.mean) = true
    · have hb0 : b.mean = fin 0 :=
        straddle_fin_zero (Bool.and_elim_left hstr) (Bool.and_elim_right hstr)
      refine ⟨JSNum.nan, ?_⟩
      simp [rpnBinaryTriple, ha1, ha2, hb1, hb2, hb0, jsEqB, jsLe]
    · have hbne : b.mean ≠ fin 0 := by
        intro he
        rw [he] at hstr
        simp [jsLe] at hstr
      refine ⟨jsDiv a.mean b.mean, ?_⟩
      simp only [rpnBinaryTriple, ha1, ha2, hb1, hb2]
      rw [if_neg (by simp_all), jsMin4_self, jsMax4_self, jsDivGuard_of_ne hbne]
  · exact ⟨jsPow P a.mean b.mean,
      by simp [rpnBinaryTriple, ha1, ha2, hb1, hb2, jsMin4_self, jsMax4_self]⟩

/-- Elements popped to the output by the shunting-yard inner loop come from the
old output or the operator stack. -/
theorem popWhileGE_spec (o1 : String) :
    ∀ (stack : List String) (out : List PTok),
      (∀ o ∈ (popWhileGE o1 stack out).1, o ∈ stack) ∧
      (∀ x ∈ (popWhileGE o1 stack out).2, x ∈ out ∨ ∃ o, o ∈ stack ∧ x = PTok.op o) := by
  intro stack
  induction stack with
  | nil => intro out; constructor <;> simp [popWhileGE]
  | cons top rest ih =>
    intro out
    rw [popWhileGE]
    split
    · refine ⟨fun o ho => List.mem_cons_of_mem _ ((ih _).1 o ho), fun x hx => ?_⟩
      rcases (ih (out ++ [PTok.op top])).2 x hx with hx | ⟨o, ho, hxo⟩
      · rcases List.mem_append.1 hx with hx | hx
        · exact Or.inl hx
        · exact Or.inr ⟨top, List.mem_cons_self _ _, by simpa using hx⟩
      · exact Or.inr ⟨o, List.mem_cons_of_mem _ ho, hxo⟩
    · exact ⟨fun o ho => ho, fun x hx => Or.inl hx⟩

/-- Elements produced by the `)` pop loop come from the old output or the
operator stack, and the remaining stack is a subset of the old one. -/
theorem syCloseParen_spec :
    ∀ (stack : List String) (out : List PTok) (p : List String × List PTok),
      syCloseParen stack out = .ok p →
      (∀ o ∈ p.1, o ∈ stack) ∧
      (∀ x ∈ p.2, x ∈ out ∨ ∃ o, o ∈ stack ∧ x = PTok.op o) := by
  intro stack
  induction stack with
  | nil => intro out p hp; simp [syCloseParen] at hp
  | cons top rest ih =>
    intro out p hp
    rw [syCloseParen] at hp
    split at hp
    · cases hp
      exact ⟨fun o ho => List.mem_cons_of_mem _ ho, fun x hx => Or.inl hx⟩
    · refine ⟨fun o ho => List.mem_cons_of_mem _ ((ih _ _ hp).1 o ho), fun x hx => ?_⟩
      rcases (ih _ _ hp).2 x hx with hx | ⟨o, ho, hxo⟩
      · rcases List.mem_append.1 hx with hx | hx
        · exact Or.inl hx
        · exact Or.inr ⟨top, List.mem_cons_self _ _, by simpa using hx⟩
      · exact Or.inr ⟨o, List.mem_cons_of_mem _ ho, hxo⟩

/-- Elements produced by the final drain come from the old output or the
operator stack. -/
theorem syDrain_spec :
    ∀ (stack : List String) (out rpn : List PTok), syDrain stack out = .ok rpn →
      ∀ x ∈ rpn, x ∈ out ∨ ∃ o, o ∈ stack ∧ x = PTok.op o := by
  intro stack
  induction stack with
  | nil =>
    intro out rpn hp x hx
    rw [syDrain] at hp
    cases hp
    exact Or.inl hx
  | cons top rest ih =>
    intro out rpn hp x hx
    rw [syDrain] at hp
    split at hp
    · cases hp
    · rcases ih _ _ hp x hx with hx | ⟨o, ho, hxo⟩
      · rcases List.mem_append.1 hx with hx | hx
        · exact Or.inl hx
        · exact Or.inr ⟨top, List.mem_cons_self _ _, by simpa using hx⟩
      · exact Or.inr ⟨o, List.mem_cons_of_mem _ ho, hxo⟩

/-- Every token of the RPN produced by the shunting-yard loop is an input
token, an old output or stack element, the synthetic `NEG`, or a (never
actually emitted) parenthesis. -/
theorem syGo_mem :
    ∀ (ts : List PTok) (prev : Option PTok) (out : List PTok) (stack : List String)
      (rpn : List PTok), syGo ts prev out stack = .ok rpn →
      ∀ x ∈ rpn,
        x ∈ ts ∨ x ∈ out ∨ (∃ o, o ∈ stack ∧ x = PTok.op o) ∨
          x = PTok.op "NEG" ∨ x = PTok.op "(" := by
  intro ts
  induction ts with
  | nil =>
    intro prev out stack rpn hp x hx
    rcases syDrain_spec stack out rpn hp x hx with hx | hx
    · exact Or.inr (Or.inl hx)
    · exact Or.inr (Or.inr (Or.inl hx))
  | cons t rest ih =>
    intro prev out stack rpn hp x hx
    cases t with
    | num q =>
      rw [syGo] at hp
      rcases ih _ _ _ _ hp x hx with hx | hx | hx | hx | hx
      · exact Or.inl (List.mem_cons_of_mem _ hx)
      · rcases List.mem_append.1 hx with hx | hx
        · exact Or.inr (Or.inl hx)
        · have hxq : x = PTok.num q := by simpa using hx
          exact Or.inl (hxq ▸ List.mem_cons_self _ _)
      · exact Or.inr (Or.inr (Or.inl hx))
      · exact Or.inr (Or.inr (Or.inr (Or.inl hx)))
      · exact Or.inr (Or.inr (Or.inr (Or.inr hx)))
    | op s =>
      rw [syGo] at hp
      split at hp
      · -- unary NEG push
        rcases ih _ _ _ _ hp x hx with hx | hx | ⟨o, ho, hxo⟩ | hx | hx
        · exact Or.inl (List.mem_cons_of_mem _ hx)
        · exact Or.inr (Or.inl hx)
        · rcases List.mem_cons.1 ho with ho | ho
          · exact Or.inr (Or.inr (Or.inr (Or.inl (by rw [hxo, ho]))))
          · exact Or.inr (Or.inr (Or.inl ⟨o, ho, hxo⟩))
        · exact Or.inr (Or.inr (Or.inr (Or.inl hx)))
        · exact Or.inr (Or.inr (Or.inr (Or.inr hx)))
      · split at hp
        · -- "(" push
          rcases ih _ _ _ _ hp x hx with hx | hx | ⟨o, ho, hxo⟩ | hx | hx
          · exact Or.inl (List.mem_cons_of_mem _ hx)
          · exact Or.inr (Or.inl hx)
          · rcases List.mem_cons.1 ho with ho | ho
            · exact Or.inr (Or.inr (Or.inr (Or.inr (by rw [hxo, ho]))))
            · exact Or.inr (Or.inr (Or.inl ⟨o, ho, hxo⟩))
          · exact Or.inr (Or.inr (Or.inr (Or.inl hx)))
          · exact Or.inr (Or.inr (Or.inr (Or.inr hx)))
        · split at hp
          · -- ")" case
            cases hcp : syCloseParen stack out with
            | error e => rw [hcp] at hp; cases hp
            | ok p =>
              rw [hcp] at hp
              rcases ih _ _ _ _ hp x hx with hx | hx | ⟨o, ho, hxo⟩ | hx | hx
              · exact Or.inl (List.mem_cons_of_mem _ hx)
              · rcases (syCloseParen_spec stack out p hcp).2 x hx with hx | ⟨o, ho, hxo⟩
                · exact Or.inr (Or.inl hx)
                · exact Or.inr (Or.inr (Or.inl ⟨o, ho, hxo⟩))
              · exact Or.inr (Or.inr (Or.inl ⟨o, (syCloseParen_spec stack out p hcp).1 o ho, hxo⟩))
              · exact Or.inr (Or.inr (Or.inr (Or.inl hx)))
              · exact Or.inr (Or.inr (Or.inr (Or.inr hx)))
          · -- operator case
            split at hp
            · rcases ih _ _ _ _ hp x hx with hx | hx | ⟨o, ho, hxo⟩ | hx | hx
              · exact Or.inl (List.mem_cons_of_mem _ hx)
              · rcases (popWhileGE_spec s stack out).2 x hx with hx | ⟨o, ho, hxo⟩
                · exact Or.inr (Or.inl hx)
                · exact Or.inr (Or.inr (Or.inl ⟨o, ho, hxo⟩))
              · rcases List.mem_cons.1 ho with ho | ho
                · exact Or.inl (by rw [hxo, ho]; exact List.mem_cons_self _ _)
                · exact Or.inr (Or.inr (Or.inl
                    ⟨o, (popWhileGE_spec s stack out).1 o ho, hxo⟩))
              · exact Or.inr (Or.inr (Or.inr (Or.inl hx)))
              · exact Or.inr (Or.inr (Or.inr (Or.inr hx)))
            · cases hp

/-- Every RPN token is an input token, `NEG`, or a parenthesis. -/
theorem shuntingYard_mem (ts rpn : List PTok) (hp : shuntingYard ts = .ok rpn) :
    ∀ x ∈ rpn, x ∈ ts ∨ x = PTok.op "NEG" ∨ x = PTok.op "(" := by
  intro x hx
  rcases syGo_mem ts none [] [] rpn hp x hx with hx | hx | ⟨o, ho, _⟩ | hx | hx
  · exact Or.inl hx
  · cases hx
  · cases ho
  · exact Or.inr (Or.inl hx)
  · exact Or.inr (Or.inr hx)

/-- The RPN evaluator preserves degeneracy over a tilde-free queue: with all
stack entries degenerate, a successful evaluation yields a degenerate value. -/
theorem evalRpnGo_degenerate (h : Host) (n : Nat) :
    ∀ (rpn : List PTok), PTok.op "~" ∉ rpn →
      ∀ (stack : List UV) (ctr : Nat) (v : UV),
      (∀ u ∈ stack, Degenerate u) →
      evalRpnGo h n rpn stack ctr = .ok (some v) →
      Degenerate v := by
  intro rpn
  induction rpn with
  | nil =>
    intro _ stack ctr v hstack heval
    cases stack with
    | nil => simp [evalRpnGo] at heval
    | cons u tl =>
      cases tl with
      | nil =>
        simp only [evalRpnGo, Except.ok.injEq, Option.some.injEq] at heval
        exact heval ▸ hstack u (List.mem_cons_self u _)
      | cons u2 tl2 => simp [evalRpnGo] at heval
  | cons t rest ih =>
    intro hnt stack ctr v hstack heval
    have hnt' : PTok.op "~" ∉ rest := fun hm => hnt (List.mem_cons_of_mem _ hm)
    cases t with
    | num q =>
      simp only [evalRpnGo] at heval
      refine ih hnt' _ _ v (fun u hu => ?_) heval
      rcases List.mem_cons.1 hu with hu | hu
      · exact hu ▸ ⟨rfl, rfl, rfl⟩
      · exact hstack u hu
    | op s =>
      by_cases hneg : s = "NEG"
      · cases stack with
        | nil => simp [evalRpnGo, if_pos hneg] at heval
        | cons a st =>
          simp only [evalRpnGo, if_pos hneg] at heval
          refine ih hnt' _ _ v (fun u hu => ?_) heval
          rcases List.mem_cons.1 hu with hu | hu
          · obtain ⟨ha1, ha2, ha3⟩ := hstack a (List.mem_cons_self a _)
            subst hu
            exact ⟨by simp only [ha1, ha2, jsMin_self], by simp only [ha1, ha2, jsMax_self],
              by simp only [ha3, Option.map_none']⟩
          · exact hstack u (List.mem_cons_of_mem _ hu)
      · by_cases htl : s = "~"
        · exact absurd (htl ▸ List.mem_cons_self (PTok.op s) rest) hnt
        · by_cases hbin : s ∈ ["+", "-", "*", "/", "^"]
          · cases stack with
            | nil =>
              simp only [evalRpnGo, if_neg hneg, if_neg htl, if_pos hbin] at heval
              simp at heval
            | cons b tl =>
              cases tl with
              | nil =>
                simp only [evalRpnGo, if_neg hneg, if_neg htl, if_pos hbin] at heval
                simp at heval
              | cons a st =>
                simp only [evalRpnGo, if_neg hneg, if_neg htl, if_pos hbin] at heval
                obtain ⟨ha1, ha2, ha3⟩ :=
                  hstack a (List.mem_cons_of_mem _ (List.mem_cons_self a _))
                obtain ⟨hb1, hb2, hb3⟩ := hstack b (List.mem_cons_self b _)
                rw [ha3, hb3] at heval
                simp only [sampOrNum, operateSamples, SampOrNum.isArr, Except.bind] at heval
                obtain ⟨tv, htv⟩ := rpnBinaryTriple_degenerate h.pow s a b
                  (by simpa using hbin) ha1 ha2 hb1 hb2
                rw [htv] at heval
                refine ih hnt' _ _ v (fun u hu => ?_) heval
                rcases List.mem_cons.1 hu with hu | hu
                · exact hu ▸ ⟨rfl, rfl, rfl⟩
                · exact hstack u (List.mem_cons_of_mem _ (List.mem_cons_of_mem _ hu))
          · simp only [evalRpnGo, if_neg hneg, if_neg htl, if_neg hbin] at heval
            simp at heval

/-- C1: for every expression that tokenizes, parses and evaluates without
error and contains no `~` token, the `UncertainValue` returned by
`evaluateExpression` has `samples == null` and `min == max == mean` unless an
intermediate `NaN` or `Infinity` was produced.  The model proves the stronger
fact that the three fields are identical values unconditionally, so the JS
equalities hold whenever the result is finite (and can only fail on a `NaN`
result, which requires an intermediate `NaN`). -/
theorem c1_no_tilde_exact (e : String) (ts rpn : List PTok) (n : Nat) (host : Host) (v : UV)
    (h1 : tokenize e = .ok ts) (h2 : PTok.op "~" ∉ ts)
    (h3 : shuntingYard ts = .ok rpn) (h4 : evalRpn rpn n host = .ok (some v)) :
    evaluateExpression e n host = .ok (some v) ∧ v.samples = none ∧
      v.min = v.mean ∧ v.max = v.mean ∧
      (v.mean.isFinite = true → (jsEqB v.min v.max = true ∧ jsEqB v.max v.mean = true)) := by
  have hrt : PTok.op "~" ∉ rpn := by
    intro hm
    rcases shuntingYard_mem ts rpn h3 _ hm with hmem | hne | hpa
    · exact h2 hmem
    · simp at hne
    · simp at hpa
  have hdeg : Degenerate v :=
    evalRpnGo_degenerate host n rpn hrt [] 0 v (by simp) h4
  refine ⟨?_, hdeg.2.2, hdeg.1, hdeg.2.1, fun hf => ?_⟩
  · rw [evaluateExpression, h1]
    show shuntingYard ts >>= _ = _
    rw [h3]
    exact h4
  · constructor
    · rw [hdeg.1, hdeg.2.1]
      exact jsEqB_self_of_finite hf
    · rw [hdeg.2.1]
      exact jsEqB_self_of_finite hf

/-- Witness for C1 at `"1+2*3"` with 4 samples and the zero host. -/
theorem c1_no_tilde_exact_witness :
    (tokenize "1+2*3" =
        .ok [PTok.num 1, PTok.op "+", PTok.num 2, PTok.op "*", PTok.num 3] ∧
      PTok.op "~" ∉ [PTok.num 1, PTok.op "+", PTok.num 2, PTok.op "*", PTok.num 3] ∧
      shuntingYard [PTok.num 1, PTok.op "+", PTok.num 2, PTok.op "*", PTok.num 3] =
        .ok [PTok.num 1, PTok.num 2, PTok.num 3, PTok.op "*", PTok.op "+"] ∧
      evalRpn [PTok.num 1, PTok.num 2, PTok.num 3, PTok.op "*", PTok.op "+"] 4 hostZero =
        .ok (some ⟨fin 7, fin 7, fin 7, none⟩)) ∧
    (evaluateExpression "1+2*3" 4 hostZero = .ok (some ⟨fin 7, fin 7, fin 7, none⟩) ∧
      (⟨fin 7, fin 7, fin 7, none⟩ : UV).samples = none ∧
      (⟨fin 7, fin 7, fin 7, none⟩ : UV).min = (⟨fin 7, fin 7, fin 7, none⟩ : UV).mean ∧
      (⟨fin 7, fin 7, fin 7, none⟩ : UV).max = (⟨fin 7, fin 7, fin 7, none⟩ : UV).mean ∧
      ((⟨fin 7, fin 7, fin 7, none⟩ : UV).mean.isFinite = true →
        (jsEqB (fin 7) (fin 7) = true ∧ jsEqB (fin 7) (fin 7) = true))) :=
  ⟨⟨by decide, by decide, by decide, by decide⟩,
    c1_no_tilde_exact "1+2*3"
      [PTok.num 1, PTok.op "+", PTok.num 2, PTok.op "*", PTok.num 3]
      [PTok.num 1, PTok.num 2, PTok.num 3, PTok.op "*", PTok.op "+"] 4 hostZero
      ⟨fin 7, fin 7, fin 7, none⟩ (by decide) (by decide) (by decide) (by decide)⟩

/-- C8: `evaluateExpression("-2^2").mean == 4`: the tokenizer keeps the minus
separate, the shunting yard emits the synthetic `NEG` (precedence 5) before
`^` (precedence 3) so the RPN is `[2, NEG, 2, ^]`, and the evaluation computes
`(-2)^2 = 4` (with the default 10000-sample count; no samples are drawn). -/
theorem c8_unary_minus_power (host : Host) :
    tokenize "-2^2" = .ok [PTok.op "-", PTok.num 2, PTok.op "^", PTok.num 2] ∧
    shuntingYard [PTok.op "-", PTok.num 2, PTok.op "^", PTok.num 2] =
      .ok [PTok.num 2, PTok.op "NEG", PTok.num 2, PTok.op "^"] ∧
    precedenceOf "NEG" = some 5 ∧ precedenceOf "^" = some 3 ∧
    evaluateExpression "-2^2" DEFAULT_SAMPLES host =
      .ok (some ⟨fin 4, fin 4, fin 4, none⟩) :=
  ⟨by decide, by decide, rfl, rfl, rfl⟩

/-- C10: evaluating `a ~ b` with equal finite exact operands (derived standard
deviation 0) pushes the shared value as mean and bounds together with
`sampleCount` samples all exactly equal to it, consuming no random draw (the
counter is unchanged and the host is not consulted), for any continuation. -/
theorem c10_degenerate_tilde (q : ℚ) (rest : List PTok) (stack : List UV) (ua ub : UV)
    (n ctr : Nat) (host : Host)
    (hA : ua.mean = fin q) (hB : ub.mean = fin q)
    (hsa : ua.samples = none) (hsb : ub.samples = none) :
    evalRpnGo host n (PTok.op "~" :: rest) (ub :: ua :: stack) ctr =
      evalRpnGo host n rest
        (⟨fin q, fin q, fin q, some (List.replicate n (fin q))⟩ :: stack) ctr := by
  have hmean : jsDiv (jsAdd (fin q) (fin q)) (fin 2) = fin q := by
    simp only [jsAdd, jsDiv]
    rw [if_neg (by norm_num)]
    congr 1
    ring
  have hsd : jsDiv (jsAbs (jsSub (fin q) (fin q))) (fin STDDEV_DIVISOR) = fin 0 := by
    simp only [jsSub, jsAbs, jsDiv, STDDEV_DIVISOR]
    rw [if_neg (by norm_num)]
    norm_num
  have hgen : generateSamples host (fin q) (fin 0) n ctr = (List.replicate n (fin q), ctr) := by
    rw [generateSamples]
    rcases Nat.eq_zero_or_pos n with hn | hn
    · subst hn; simp [jsEqB]
    · rw [if_neg (Nat.pos_iff_ne_zero.1 hn), if_pos (by simp [jsEqB])]
  simp only [evalRpnGo, if_neg (by decide : ¬("~" : String) = "NEG"), if_pos rfl, hsa, hsb,
    ne_eq, not_true_eq_false, or_self, if_false, if_true, hA, hB, hmean, hsd, hgen,
    jsMin_self, jsMax_self]

/-- Witness for C10 at `a = b = 3`, two samples, empty continuation. -/
theorem c10_degenerate_tilde_witness :
    ((⟨fin 3, fin 3, fin 3, none⟩ : UV).mean = fin 3 ∧
      (⟨fin 3, fin 3, fin 3, none⟩ : UV).samples = none) ∧
    evalRpnGo hostZero 2 [PTok.op "~"]
        [⟨fin 3, fin 3, fin 3, none⟩, ⟨fin 3, fin 3, fin 3, none⟩] 5 =
      evalRpnGo hostZero 2 []
        [⟨fin 3, fin 3, fin 3, some (List.replicate 2 (fin 3))⟩] 5 :=
  ⟨⟨rfl, rfl⟩,
    c10_degenerate_tilde 3 [] [] ⟨fin 3, fin 3, fin 3, none⟩ ⟨fin 3, fin 3, fin 3, none⟩
      2 5 hostZero rfl rfl rfl rfl⟩

/-- The sample operation of a binary `/` step always succeeds. -/
theorem operateSamples_div_ok (P : ℚ → ℚ → ℚ) (a b : SampOrNum) (n : Nat) :
    ∃ smp, operateSamples P a b "/" n = .ok smp := by
  cases a <;> cases b <;> simp [operateSamples, SampOrNum.isArr, sampOp]

/-- C3: a binary `/` step of the interval evaluator never raises an error and
pushes a value whose interval is exactly the claimed case analysis
(`claimDivInterval`): over a zero-straddling divisor interval, `[NaN,NaN]`
exactly for the degenerate zero divisor, else `[0,0]` exactly for the
degenerate zero numerator, else the full line; otherwise the corner-quotient
min/max.  The mean and samples are existentially quantified (the claim does
not constrain them); the counter is unchanged. -/
theorem c3_division_interval (host : Host) (n : Nat) (rest : List PTok)
    (stack : List UV) (ctr : Nat) (uvA uvB : UV) :
    ∃ m smp,
      evalRpnGo host n (PTok.op "/" :: rest) (uvB :: uvA :: stack) ctr =
        evalRpnGo host n rest
          (⟨m, (claimDivInterval uvA.min uvA.max uvB.min uvB.max).1,
            (claimDivInterval uvA.min uvA.max uvB.min uvB.max).2, smp⟩ :: stack) ctr := by
  obtain ⟨smp, hsmp⟩ := operateSamples_div_ok host.pow
    (sampOrNum uvA.samples uvA.mean) (sampOrNum uvB.samples uvB.mean) n
  refine ⟨(rpnBinaryTriple host.pow "/" uvA uvB).1, smp, ?_⟩
  have htr : ((rpnBinaryTriple host.pow "/" uvA uvB).2.1,
      (rpnBinaryTriple host.pow "/" uvA uvB).2.2) =
      claimDivInterval uvA.min uvA.max uvB.min uvB.max := by
    rw [rpnBinaryTriple, claimDivInterval]
    split
    · split
      · rfl
      · split <;> rfl
    · rfl
  simp only [evalRpnGo, if_neg (by decide : ¬("/" : String) = "NEG"),
    if_neg (by decide : ¬("/" : String) = "~"),
    if_pos (by decide : ("/" : String) ∈ ["+", "-", "*", "/", "^"]), hsmp, Except.bind]
  rw [← htr]
  rfl

/-- C2: a literal-reduction `+`/`-` on two money literals of different
currencies first converts the right operand into the left's currency via the
rate resolver (`convertLiteralCurrency`, which calls `getCurrencyRate`), then
combines the amounts, rounds to 2 decimals, and tags the result with the
left operand's currency; and the analogous rule — converting the right
operand's full mean/interval/samples tuple via `convertCurrencyValue` before
combining — holds in the uncertainty-propagating evaluator. -/
theorem c2_money_addsub (P : ℚ → ℚ → ℚ) (h : Host) (op : String) (rates : RateMap)
    (hop : op = "+" ∨ op = "-") :
    (∀ (lv rv : JSNum) (lc rc : String), lc ≠ rc →
      evaluateCurrencyBinary P op (.money lv lc) (.money rv rc) rates =
        (convertLiteralCurrency (.money rv rc) lc rates).map (fun conv =>
          createMoneyLiteral
            (roundCurrencyValue (if op = "+" then jsAdd lv conv.value else jsSub lv conv.value))
            lc)) ∧
    (∀ (lm lmin lmax rm rmin rmax : JSNum) (ls rs : Option (List JSNum)) (lc rc : String)
        (n ctr : Nat), lc ≠ rc →
      evaluateCurrencyBinaryWithUncertainty h op (.money lm lmin lmax ls lc)
          (.money rm rmin rmax rs rc) rates n ctr =
        (convertCurrencyValue (.money rm rmin rmax rs rc) lc rates).bind (fun conv => do
          let samples ← operateSamples h.pow (sampOrNum ls lm)
            (sampOrNum conv.sampOf conv.meanOf) op n
          Except.ok (CVal.money
            (roundCurrencyValue (if op = "+" then jsAdd lm conv.meanOf else jsSub lm conv.meanOf))
            (roundCurrencyValue (jsMin
              (if op = "+" then jsAdd lmin conv.minOf else jsSub lmin conv.maxOf)
              (if op = "+" then jsAdd lmax conv.maxOf else jsSub lmax conv.minOf)))
            (roundCurrencyValue (jsMax
              (if op = "+" then jsAdd lmin conv.minOf else jsSub lmin conv.maxOf)
              (if op = "+" then jsAdd lmax conv.maxOf else jsSub lmax conv.minOf)))
            (samples.map (List.map roundCurrencyValue)) lc, ctr))) := by
  constructor
  · intro lv rv lc rc hne
    rcases hop with hop | hop <;> subst hop <;>
      cases hconv : convertLiteralCurrency (.money rv rc) lc rates <;>
        simp [evaluateCurrencyBinary, hconv, Ne.symm hne, Except.map, Except.bind] <;> rfl
  · intro lm lmin lmax rm rmin rmax ls rs lc rc n ctr hne
    rcases hop with hop | hop <;> subst hop <;>
      cases hconv : convertCurrencyValue (.money rm rmin rmax rs rc) lc rates <;>
        simp [evaluateCurrencyBinaryWithUncertainty, hconv, Ne.symm hne, Except.bind] <;> rfl

/-- Witness for C2: `2eur + 3pln` over the default rate map. -/
theorem c2_money_addsub_witness :
    (("+" : String) = "+" ∨ ("+" : String) = "-") ∧ ("eur" : String) ≠ "pln" ∧
    evaluateCurrencyBinary (fun _ _ => 0) "+" (.money (fin 2) "eur") (.money (fin 3) "pln")
        (buildCurrencyRateMap none) =
      (convertLiteralCurrency (.money (fin 3) "pln") "eur" (buildCurrencyRateMap none)).map
        (fun conv => createMoneyLiteral
          (roundCurrencyValue
            (if ("+" : String) = "+" then jsAdd (fin 2) conv.value else jsSub (fin 2) conv.value))
          "eur") :=
  ⟨Or.inl rfl, by decide,
    (c2_money_addsub (fun _ _ => 0) hostZero "+" (buildCurrencyRateMap none) (Or.inl rfl)).1
      (fin 2) (fin 3) "eur" "pln" (by decide)⟩

/-- C9: on any sample list with at least one finite entry, `getQuantiles`
returns the elements of the ascending-sorted finite samples at the clamped
indices `floor(0.05*n)-1` and `ceil(0.95*n)-1`; the 5th percentile is at most
the 95th, and both are members of the finite samples (hence lie within
`[min(samples), max(samples)]`). -/
theorem c9_quantile_bounds (l : List JSNum) (hne : finiteVals l ≠ []) :
    ∃ p05 p95 : ℚ,
      getQuantiles (some l) = (fin p05, fin p95) ∧
      p05 = (List.insertionSort (· ≤ ·) (finiteVals l)).getD
        (max 0 (⌊((finiteVals l).length : ℚ) / 20⌋ - 1)).toNat 0 ∧
      p95 = (List.insertionSort (· ≤ ·) (finiteVals l)).getD
        (min (((finiteVals l).length : ℤ) - 1)
          (⌈(19 : ℚ) * (finiteVals l).length / 20⌉ - 1)).toNat 0 ∧
      p05 ≤ p95 ∧ p05 ∈ finiteVals l ∧ p95 ∈ finiteVals l := by
  have hl : l ≠ [] := by
    intro he
    rw [he] at hne
    exact hne rfl
  have hL : 0 < (finiteVals l).length := List.length_pos.2 hne
  set valid := finiteVals l with hvalid
  set sorted := List.insertionSort (· ≤ ·) valid with hsorted
  have hslen : sorted.length = valid.length := List.length_insertionSort _ _
  set L : ℕ := valid.length with hdefL
  set i05 : ℕ := (max 0 (⌊(L : ℚ) / 20⌋ - 1)).toNat with hi05def
  set i95 : ℕ := (min ((L : ℤ) - 1) (⌈(19 : ℚ) * L / 20⌉ - 1)).toNat with hi95def
  have hfloorL : ⌊(L : ℚ) / 20⌋ ≤ (L : ℤ) := by
    calc ⌊(L : ℚ) / 20⌋ ≤ ⌊(L : ℚ)⌋ := by
          apply Int.floor_le_floor
          apply div_le_self (by positivity)
          norm_num
      _ = (L : ℤ) := Int.floor_intCast L
  have hit05 : (max 0 (⌊(L : ℚ) / 20⌋ - 1)) ≤ (L : ℤ) - 1 := by
    apply max_le
    · omega
    · omega
  have hi05lt : i05 < L := by
    rw [hi05def]
    omega
  have hi95le : (min ((L : ℤ) - 1) (⌈(19 : ℚ) * L / 20⌉ - 1)) ≤ (L : ℤ) - 1 :=
    min_le_left _ _
  have hi95lt : i95 < L := by
    rw [hi95def]
    omega
  have hceil1 : 1 ≤ ⌈(19 : ℚ) * L / 20⌉ := by
    apply Int.ceil_pos.2
    positivity
  have hfc : ⌊(L : ℚ) / 20⌋ ≤ ⌈(19 : ℚ) * L / 20⌉ := by
    calc ⌊(L : ℚ) / 20⌋ ≤ ⌈(L : ℚ) / 20⌉ := Int.floor_le_ceil _
      _ ≤ ⌈(19 : ℚ) * L / 20⌉ := by
          apply Int.ceil_le_ceil
          apply div_le_div_of_nonneg_right ?_ (by norm_num)
          nlinarith [Nat.cast_nonneg (α := ℚ) L]
  have hiz : (max 0 (⌊(L : ℚ) / 20⌋ - 1)) ≤ (min ((L : ℤ) - 1) (⌈(19 : ℚ) * L / 20⌉ - 1)) := by
    apply le_min hit05
    apply max_le
    · exact sub_nonneg.2 hceil1
    · exact sub_le_sub_right hfc 1
  have hii : i05 ≤ i95 := by
    rw [hi05def, hi95def]
    exact Int.toNat_le_toNat hiz
  have hi05s : i05 < sorted.length := by rw [hslen]; exact hi05lt
  have hi95s : i95 < sorted.length := by rw [hslen]; exact hi95lt
  refine ⟨sorted.getD i05 0, sorted.getD i95 0, ?_, rfl, rfl, ?_, ?_, ?_⟩
  · simp only [getQuantiles]
    rw [if_neg (show ¬(l.length = 0) by simpa using hl),
      if_neg (show ¬((finiteVals l).length = 0) by simpa using hne),
      List.length_insertionSort]
  · rw [List.getD_eq_get _ _ hi05s, List.getD_eq_get _ _ hi95s]
    exact (List.sorted_insertionSort (· ≤ ·) valid).rel_get_of_le (by simpa using hii)
  · rw [List.getD_eq_get _ _ hi05s]
    exact (List.perm_insertionSort (· ≤ ·) valid).subset (List.get_mem _ _ _)
  · rw [List.getD_eq_get _ _ hi95s]
    exact (List.perm_insertionSort (· ≤ ·) valid).subset (List.get_mem _ _ _)

/-- Witness for C9 at the list `[3, 1, NaN, 2]`. -/
theorem c9_quantile_bounds_witness :
    finiteVals [fin 3, fin 1, JSNum.nan, fin 2] ≠ [] ∧
    ∃ p05 p95 : ℚ,
      getQuantiles (some [fin 3, fin 1, JSNum.nan, fin 2]) = (fin p05, fin p95) ∧
      p05 = (List.insertionSort (· ≤ ·) (finiteVals [fin 3, fin 1, JSNum.nan, fin 2])).getD
        (max 0 (⌊((finiteVals [fin 3, fin 1, JSNum.nan, fin 2]).length : ℚ) / 20⌋ - 1)).toNat 0 ∧
      p95 = (List.insertionSort (· ≤ ·) (finiteVals [fin 3, fin 1, JSNum.nan, fin 2])).getD
        (min (((finiteVals [fin 3, fin 1, JSNum.nan, fin 2]).length : ℤ) - 1)
          (⌈(19 : ℚ) * (finiteVals [fin 3, fin 1, JSNum.nan, fin 2]).length / 20⌉ - 1)).toNat 0 ∧
      p05 ≤ p95 ∧ p05 ∈ finiteVals [fin 3, fin 1, JSNum.nan, fin 2] ∧
      p95 ∈ finiteVals [fin 3, fin 1, JSNum.nan, fin 2] :=
  ⟨by decide, c9_quantile_bounds [fin 3, fin 1, JSNum.nan, fin 2] (by decide)⟩

/-- C5: `evaluateExpressionWithSteps("1usd + 1pln to eur", undefined,
{currencyRates: {eur: {usd: 2, pln: 4}}})` displays `"0.75eur"`.  The rate map
merges the caller rates over the defaults and auto-derives reciprocals
(including the new `usd` key), `1pln` is bridged into `usd` through `eur` at
rate `1/2` by the BFS, the `1.5usd` sum converts to `eur`, and the money
amount is rendered with exactly 2 decimals.  Host-independent (no `~`, so no
sampling occurs). -/
theorem c5_bridged_display (host : Host) :
    buildCurrencyRateMap (some [("eur", [("usd", 2), ("pln", 4)])]) =
      [("eur", [("pln", 4), ("usd", 2)]), ("pln", [("eur", 1 / 4)]),
        ("usd", [("eur", 1 / 2)])] ∧
    getCurrencyRate "pln" "usd"
      (buildCurrencyRateMap (some [("eur", [("usd", 2), ("pln", 4)])])) = .ok (1 / 2) ∧
    evaluateExpressionWithSteps host "1usd + 1pln to eur" DEFAULT_SAMPLES
        (some [("eur", [("usd", 2), ("pln", 4)])]) =
      .ok ⟨true, some "eur", ["1usd + 1pln to eur", "1.5usd to eur", "0.75eur"],
        some ⟨fin (3 / 4), fin (3 / 4), fin (3 / 4), none, some "eur", some "0.75eur"⟩⟩ :=
  ⟨by decide, by decide, rfl⟩

/-- C6: `evaluateExpressionWithSteps("120eur + 50pln to pln * 2")` returns
`isCurrencyExpression = true`, currency `"pln"`, and exactly the four steps
produced by one-layer literal reduction (the pre-conversion passes carry the
`to pln * 2` suffix, the post-conversion passes are plain): the first step
contains `"to pln * 2"` and the last ends with `"pln"`.  Host-independent. -/
theorem c6_currency_steps (host : Host) :
    evaluateExpressionWithSteps host "120eur + 50pln to pln * 2" DEFAULT_SAMPLES none =
      .ok ⟨true, some "pln",
        ["120eur + 50pln to pln * 2", "131.85eur to pln * 2", "556.41pln * 2", "1112.82pln"],
        some ⟨fin (55641 / 50), fin (55641 / 50), fin (55641 / 50), none, some "pln",
          some "1112.82pln"⟩⟩ ∧
    4 ≤ (["120eur + 50pln to pln * 2", "131.85eur to pln * 2", "556.41pln * 2",
      "1112.82pln"] : List String).length ∧
    (∃ pre post : String, "120eur + 50pln to pln * 2" = pre ++ "to pln * 2" ++ post) ∧
    strEndsWith "1112.82pln" "pln" = true :=
  ⟨rfl, by decide, ⟨"120eur + 50pln ", "", by decide⟩, by decide⟩

theorem generateSamples_len (h : Host) (mean sd : JSNum) (n ctr : Nat) :
    (generateSamples h mean sd n ctr).1.length = n := by
  rw [generateSamples]
  by_cases hn : n = 0
  · subst hn
    simp
  · rw [if_neg hn]
    by_cases hsd : jsEqB sd (fin 0) = true
    · rw [if_pos hsd]
      simp
    · rw [if_neg hsd]
      simp

theorem operateSamples_len (P : ℚ → ℚ → ℚ) (a b : SampOrNum) (op : String) (n : Nat)
    (s : Option (List JSNum)) (h : operateSamples P a b op n = .ok s) :
    s = none ∨ ∃ l, s = some l ∧ l.length = n := by
  rw [operateSamples] at h
  by_cases hnum : (!a.isArr && !b.isArr) = true
  · rw [if_pos hnum] at h
    injection h with h
    exact Or.inl h.symm
  · rw [if_neg hnum] at h
    cases hso : sampOp P op with
    | none => rw [hso] at h; cases h
    | some f =>
      rw [hso] at h
      injection h with h
      exact Or.inr ⟨_, h.symm, by simp⟩

theorem operateSamples_isSome (P : ℚ → ℚ → ℚ) (a b : SampOrNum) (op : String) (n : Nat)
    (s : Option (List JSNum)) (h : operateSamples P a b op n = .ok s)
    (hab : (∃ l, a = .arr l) ∨ (∃ l, b = .arr l)) :
    ∃ l, s = some l ∧ l.length = n := by
  rw [operateSamples] at h
  have hnum : ¬((!a.isArr && !b.isArr) = true) := by
    rcases hab with ⟨l, rfl⟩ | ⟨l, rfl⟩ <;> simp [SampOrNum.isArr]
  rw [if_neg hnum] at h
  cases hso : sampOp P op with
  | none => rw [hso] at h; cases h
  | some f =>
    rw [hso] at h
    injection h with h
    exact ⟨_, h.symm, by simp⟩

theorem sampOrNum_arr {s : Option (List JSNum)} {m : JSNum} (hs : s ≠ none) :
    ∃ l, sampOrNum s m = .arr l := by
  cases s with
  | none => exact absurd rfl hs
  | some l => exact ⟨l, rfl⟩

/-- Mapping rounding over an optional sample list keeps the shape invariant. -/
theorem sampMap_len {n : Nat} {s : Option (List JSNum)} (f : JSNum → JSNum)
    (hs : s = none ∨ ∃ l, s = some l ∧ l.length = n) :
    s.map (List.map f) = none ∨ ∃ l, s.map (List.map f) = some l ∧ l.length = n := by
  rcases hs with rfl | ⟨l, rfl, hl⟩
  · exact Or.inl rfl
  · exact Or.inr ⟨_, rfl, by simp [hl]⟩

/-- `convertCurrencyValue` preserves absence, presence and length of the
sample array. -/
theorem convertCurrencyValue_samples (v w : CVal) (tc : String) (rates : RateMap)
    (h : convertCurrencyValue v tc rates = .ok w) :
    (v.sampOf = none → w.sampOf = none) ∧
    (∀ l, v.sampOf = some l → ∃ l', w.sampOf = some l' ∧ l'.length = l.length) := by
  cases v with
  | scalar m mn mx s => rw [convertCurrencyValue] at h; cases h
  | money m mn mx s c =>
    rw [convertCurrencyValue] at h
    by_cases hc : c = toLowerStr tc
    · rw [if_pos hc] at h
      injection h with h
      subst h
      exact ⟨fun hs => hs, fun l hl => ⟨l, hl, rfl⟩⟩
    · rw [if_neg hc] at h
      cases hrate : getCurrencyRate c (toLowerStr tc) rates with
      | error e => rw [hrate] at h; cases h
      | ok rate =>
        rw [hrate] at h
        injection h with h
        subst h
        constructor
        · intro hs
          simp only [CVal.sampOf] at hs ⊢
          rw [hs]
          rfl
        · intro l hl
          simp only [CVal.sampOf] at hl ⊢
          rw [hl]
          exact ⟨_, rfl, by simp⟩

/-- The binary uncertainty operators keep the sample-shape invariant, and
produce a present sample array of length `sampleCount` whenever the operator
is `~` or either operand already carries samples. -/
theorem binaryUncert_samples (h : Host) (op : String) (l r : CVal) (rates : RateMap)
    (n ctr ctr2 : Nat) (v : CVal)
    (hl : SampLenOK n l) (hr : SampLenOK n r)
    (heval : evaluateCurrencyBinaryWithUncertainty h op l r rates n ctr = .ok (v, ctr2)) :
    SampLenOK n v ∧
      ((op = "~" ∨ l.sampOf ≠ none ∨ r.sampOf ≠ none) →
        ∃ ls, v.sampOf = some ls ∧ ls.length = n) := by
  have main : ∀ (sa sb : Option (List JSNum)) (ma mb : JSNum)
      (mkv : Option (List JSNum) → CVal), op ≠ "~" →
      (∀ s, (mkv s).sampOf = s) →
      ((do
        let samples ← operateSamples h.pow (sampOrNum sa ma) (sampOrNum sb mb) op n
        Except.ok (mkv samples, ctr)) = Except.ok (v, ctr2)) →
      SampLenOK n v ∧
        ((op = "~" ∨ sa ≠ none ∨ sb ≠ none) → ∃ ls, v.sampOf = some ls ∧ ls.length = n) := by
    intro sa sb ma mb mkv htl hmk heval2
    cases hs : operateSamples h.pow (sampOrNum sa ma) (sampOrNum sb mb) op n with
    | error e =>
      rw [hs] at heval2
      replace heval2 : Except.error e = Except.ok (v, ctr2) := heval2
      cases heval2
    | ok s =>
      rw [hs] at heval2
      replace heval2 : Except.ok (mkv s, ctr) = Except.ok (v, ctr2) := heval2
      injection heval2 with heval2
      rw [Prod.mk.injEq] at heval2
      obtain ⟨rfl, rfl⟩ := heval2
      refine ⟨?_, fun hpre => ?_⟩
      · simp only [SampLenOK, hmk]
        exact operateSamples_len _ _ _ _ _ _ hs
      · simp only [hmk]
        rcases hpre with hpre | hpre | hpre
        · exact absurd hpre htl
        · exact operateSamples_isSome _ _ _ _ _ _ hs
            (Or.inl (by simpa using sampOrNum_arr hpre))
        · exact operateSamples_isSome _ _ _ _ _ _ hs
            (Or.inr (by simpa using sampOrNum_arr hpre))
  have mainR : ∀ (sa sb : Option (List JSNum)) (ma mb : JSNum)
      (mkv : Option (List JSNum) → CVal), op ≠ "~" →
      (∀ s, (mkv s).sampOf = s.map (List.map roundCurrencyValue)) →
      ((do
        let samples ← operateSamples h.pow (sampOrNum sa ma) (sampOrNum sb mb) op n
        Except.ok (mkv samples, ctr)) = Except.ok (v, ctr2)) →
      SampLenOK n v ∧
        ((op = "~" ∨ sa ≠ none ∨ sb ≠ none) → ∃ ls, v.sampOf = some ls ∧ ls.length = n) := by
    intro sa sb ma mb mkv htl hmk heval2
    cases hs : operateSamples h.pow (sampOrNum sa ma) (sampOrNum sb mb) op n with
    | error e =>
      rw [hs] at heval2
      replace heval2 : Except.error e = Except.ok (v, ctr2) := heval2
      cases heval2
    | ok s =>
      rw [hs] at heval2
      replace heval2 : Except.ok (mkv s, ctr) = Except.ok (v, ctr2) := heval2
      injection heval2 with heval2
      rw [Prod.mk.injEq] at heval2
      obtain ⟨rfl, rfl⟩ := heval2
      refine ⟨?_, fun hpre => ?_⟩
      · simp only [SampLenOK, hmk]
        exact sampMap_len _ (operateSamples_len _ _ _ _ _ _ hs)
      · simp only [hmk]
        have hsome : ∃ lx, s = some lx ∧ lx.length = n := by
          rcases hpre with hpre | hpre | hpre
          · exact absurd hpre htl
          · exact operateSamples_isSome _ _ _ _ _ _ hs
              (Or.inl (by simpa using sampOrNum_arr hpre))
          · exact operateSamples_isSome _ _ _ _ _ _ hs
              (Or.inr (by simpa using sampOrNum_arr hpre))
        obtain ⟨lx, rfl, hlen⟩ := hsome
        exact ⟨_, rfl, by simp [hlen]⟩
  cases l with
  | scalar lm lmin lmax ls =>
    cases r with
    | scalar rm rmin rmax rs =>
      simp only [evaluateCurrencyBinaryWithUncertainty] at heval
      by_cases htl : op = "~"
      · rw [if_pos htl] at heval
        by_cases hss : ls ≠ none ∨ rs ≠ none
        · rw [if_pos hss] at heval
          cases heval
        · rw [if_neg hss] at heval
          replace heval : Except.ok (CVal.scalar (jsDiv (jsAdd lm rm) (fin 2))
              (jsMin lm rm) (jsMax lm rm)
              (some (generateSamples h (jsDiv (jsAdd lm rm) (fin 2))
                (jsDiv (jsAbs (jsSub rm lm)) (fin STDDEV_DIVISOR)) n ctr).1),
              (generateSamples h (jsDiv (jsAdd lm rm) (fin 2))
                (jsDiv (jsAbs (jsSub rm lm)) (fin STDDEV_DIVISOR)) n ctr).2)
              = Except.ok (v, ctr2) := heval
          injection heval with heval
          rw [Prod.mk.injEq] at heval
          obtain ⟨rfl, rfl⟩ := heval
          exact ⟨Or.inr ⟨_, rfl, generateSamples_len ..⟩,
            fun _ => ⟨_, rfl, generateSamples_len ..⟩⟩
      · rw [if_neg htl] at heval
        by_cases hpm : op = "+" ∨ op = "-"
        · rw [if_pos hpm] at heval
          exact main ls rs lm rm
            (fun s => CVal.scalar (if op = "+" then jsAdd lm rm else jsSub lm rm)
              (if op = "+" then jsAdd lmin rmin else jsSub lmin rmax)
              (if op = "+" then jsAdd lmax rmax else jsSub lmax rmin) s)
            htl (fun _ => rfl) heval
        · rw [if_neg hpm] at heval
          by_cases hmul : op = "*"
          · rw [if_pos hmul] at heval
            exact main ls rs lm rm
              (fun s => CVal.scalar (jsMul lm rm) (getMulBounds lmin lmax rmin rmax).1
                (getMulBounds lmin lmax rmin rmax).2 s)
              htl (fun _ => rfl) heval
          · rw [if_neg hmul] at heval
            by_cases hdiv : op = "/"
            · rw [if_pos hdiv] at heval
              exact main ls rs lm rm
                (fun s => CVal.scalar (jsDivGuard lm rm) (getDivBounds lmin lmax rmin rmax).1
                  (getDivBounds lmin lmax rmin rmax).2 s)
                htl (fun _ => rfl) heval
            · rw [if_neg hdiv] at heval
              by_cases hpow : op = "^"
              · rw [if_pos hpow] at heval
                exact main ls rs lm rm
                  (fun s => CVal.scalar (jsPow h.pow lm rm)
                    (getPowBounds h.pow lmin lmax rmin rmax).1
                    (getPowBounds h.pow lmin lmax rmin rmax).2 s)
                  htl (fun _ => rfl) heval
              · rw [if_neg hpow] at heval
                cases heval
    | money rm rmin rmax rs rc =>
      simp only [evaluateCurrencyBinaryWithUncertainty] at heval
      by_cases htl : op = "~"
      · rw [if_pos htl] at heval
        cases heval
      · rw [if_neg htl] at heval
        by_cases hpm : op = "+" ∨ op = "-"
        · rw [if_pos hpm] at heval
          cases heval
        · rw [if_neg hpm] at heval
          by_cases hmul : op = "*"
          · rw [if_pos hmul] at heval
            have hmm := mainR rs ls rm lm
              (fun s => CVal.money (roundCurrencyValue (jsMul rm lm))
                (roundCurrencyValue (getMulBounds rmin rmax lmin lmax).1)
                (roundCurrencyValue (getMulBounds rmin rmax lmin lmax).2)
                (s.map (List.map roundCurrencyValue)) rc)
              htl (fun _ => rfl) heval
            refine ⟨hmm.1, fun hpre => hmm.2 ?_⟩
            simp only [CVal.sampOf] at hpre
            tauto
          · rw [if_neg hmul] at heval
            by_cases hdiv : op = "/"
            · rw [if_pos hdiv] at heval
              cases heval
            · rw [if_neg hdiv] at heval
              by_cases hpow : op = "^"
              · rw [if_pos hpow] at heval
                cases heval
              · rw [if_neg hpow] at heval
                cases heval
  | money lm lmin lmax ls lc =>
    cases r with
    | scalar rm rmin rmax rs =>
      simp only [evaluateCurrencyBinaryWithUncertainty] at heval
      by_cases htl : op = "~"
      · rw [if_pos htl] at heval
        cases heval
      · rw [if_neg htl] at heval
        by_cases hpm : op = "+" ∨ op = "-"
        · rw [if_pos hpm] at heval
          cases heval
        · rw [if_neg hpm] at heval
          by_cases hmul : op = "*"
          · rw [if_pos hmul] at heval
            exact mainR ls rs lm rm
              (fun s => CVal.money (roundCurrencyValue (jsMul lm rm))
                (roundCurrencyValue (getMulBounds lmin lmax rmin rmax).1)
                (roundCurrencyValue (getMulBounds lmin lmax rmin rmax).2)
                (s.map (List.map roundCurrencyValue)) lc)
              htl (fun _ => rfl) heval
          · rw [if_neg hmul] at heval
            by_cases hdiv : op = "/"
            · rw [if_pos hdiv] at heval
              exact mainR ls rs lm rm
                (fun s => CVal.money (roundCurrencyValue (jsDivGuard lm rm))
                  (roundCurrencyValue (getDivBounds lmin lmax rmin rmax).1)
                  (roundCurrencyValue (getDivBounds lmin lmax rmin rmax).2)
                  (s.map (List.map roundCurrencyValue)) lc)
                htl (fun _ => rfl) heval
            · rw [if_neg hdiv] at heval
              by_cases hpow : op = "^"
              · rw [if_pos hpow] at heval
                exact mainR ls rs lm rm
                  (fun s => CVal.money (roundCurrencyValue (jsPow h.pow lm rm))
                    (roundCurrencyValue (getPowBounds h.pow lmin lmax rmin rmax).1)
                    (roundCurrencyValue (getPowBounds h.pow lmin lmax rmin rmax).2)
                    (s.map (List.map roundCurrencyValue)) lc)
                  htl (fun _ => rfl) heval
              · rw [if_neg hpow] at heval
                cases heval
    | money rm rmin rmax rs rc =>
      simp only [evaluateCurrencyBinaryWithUncertainty] at heval
      by_cases htl : op = "~"
      · rw [if_pos htl] at heval
        cases heval
      · rw [if_neg htl] at heval
        by_cases hpm : op = "+" ∨ op = "-"
        · rw [if_pos hpm] at heval
          by_cases hrc : rc = lc
          · rw [if_pos hrc] at heval
            have hmm := mainR ls rs lm rm
              (fun s => CVal.money
                (roundCurrencyValue (if op = "+" then jsAdd lm rm else jsSub lm rm))
                (roundCurrencyValue (jsMin
                  (if op = "+" then jsAdd lmin rmin else jsSub lmin rmax)
                  (if op = "+" then jsAdd lmax rmax else jsSub lmax rmin)))
                (roundCurrencyValue (jsMax
                  (if op = "+" then jsAdd lmin rmin else jsSub lmin rmax)
                  (if op = "+" then jsAdd lmax rmax else jsSub lmax rmin)))
                (s.map (List.map roundCurrencyValue)) lc)
              htl (fun _ => rfl) heval
            refine ⟨hmm.1, fun hpre => hmm.2 ?_⟩
            simp only [CVal.sampOf] at hpre
            exact hpre
          · rw [if_neg hrc] at heval
            cases hcv : convertCurrencyValue (.money rm rmin rmax rs rc) lc rates with
            | error e =>
              rw [hcv] at heval
              replace heval : Except.error e = Except.ok (v, ctr2) := heval
              cases heval
            | ok r2 =>
              rw [hcv] at heval
              obtain ⟨habs2, hpres2⟩ :=
                convertCurrencyValue_samples (.money rm rmin rmax rs rc) r2 lc rates hcv
              have hmm := mainR ls r2.sampOf lm r2.meanOf
                (fun s => CVal.money
                  (roundCurrencyValue
                    (if op = "+" then jsAdd lm r2.meanOf else jsSub lm r2.meanOf))
                  (roundCurrencyValue (jsMin
                    (if op = "+" then jsAdd lmin r2.minOf else jsSub lmin r2.maxOf)
                    (if op = "+" then jsAdd lmax r2.maxOf else jsSub lmax r2.minOf)))
                  (roundCurrencyValue (jsMax
                    (if op = "+" then jsAdd lmin r2.minOf else jsSub lmin r2.maxOf)
                    (if op = "+" then jsAdd lmax r2.maxOf else jsSub lmax r2.minOf)))
                  (s.map (List.map roundCurrencyValue)) lc)
                htl (fun _ => rfl) heval
              refine ⟨hmm.1, fun hpre => hmm.2 ?_⟩
              simp only [CVal.sampOf] at hpre
              rcases hpre with hpre | hpre | hpre
              · exact Or.inl hpre
              · exact Or.inr (Or.inl hpre)
              · cases hrs : rs with
                | none => exact absurd hrs hpre
                | some lx =>
                  obtain ⟨l2, hl2, _⟩ := hpres2 lx (by simp [CVal.sampOf, hrs])
                  exact Or.inr (Or.inr (by simp [hl2]))
        · rw [if_neg hpm] at heval
          by_cases hmul : op = "*"
          · rw [if_pos hmul] at heval
            cases heval
          · rw [if_neg hmul] at heval
            by_cases hdiv : op = "/"
            · rw [if_pos hdiv] at heval
              exact main ls rs lm rm
                (fun s => CVal.scalar (jsDivGuard lm rm) (getDivBounds lmin lmax rmin rmax).1
                  (getDivBounds lmin lmax rmin rmax).2 s)
                htl (fun _ => rfl) heval
            · rw [if_neg hdiv] at heval
              by_cases hpow : op = "^"
              · rw [if_pos hpow] at heval
                cases heval
              · rw [if_neg hpow] at heval
                cases heval


/-- Sample-shape invariant of the whole uncertainty AST evaluator: every
successful evaluation satisfies the shape invariant, and a `~` anywhere in the
tree forces a present sample array of length exactly the sample count. -/
theorem evalCA_samples (h : Host) (rates : RateMap) (n : Nat) (node : CNode) :
    ∀ (bv : Option CVal) (ctr ctr2 : Nat) (v : CVal),
      (∀ b, bv = some b → SampLenOK n b) →
      evaluateCurrencyAstWithUncertainty h rates n node bv ctr = .ok (v, ctr2) →
      SampLenOK n v ∧
        (containsTilde node = true → ∃ ls, v.sampOf = some ls ∧ ls.length = n) := by
  induction node with
  | lit l0 =>
    intro bv ctr ctr2 v hbv heval
    replace heval : Except.ok (createCurrencyValueFromLiteral l0, ctr)
        = Except.ok (v, ctr2) := heval
    injection heval with heval
    rw [Prod.mk.injEq] at heval
    obtain ⟨rfl, rfl⟩ := heval
    refine ⟨Or.inl ?_, fun hpre => by simp [containsTilde] at hpre⟩
    cases l0 <;> rfl
  | base =>
    intro bv ctr ctr2 v hbv heval
    cases bv with
    | none =>
      replace heval : (Except.error "Base token was used without a replacement value"
          : Except String (CVal × Nat)) = Except.ok (v, ctr2) := heval
      cases heval
    | some b =>
      replace heval : Except.ok (b, ctr) = Except.ok (v, ctr2) := heval
      injection heval with heval
      rw [Prod.mk.injEq] at heval
      obtain ⟨rfl, rfl⟩ := heval
      exact ⟨hbv b rfl, fun hpre => by simp [containsTilde] at hpre⟩
  | unary op w ih =>
    intro bv ctr ctr2 v hbv heval
    simp only [evaluateCurrencyAstWithUncertainty] at heval
    by_cases hneg : op ≠ "-"
    · rw [if_pos hneg] at heval
      cases heval
    · rw [if_neg hneg] at heval
      cases h1 : evaluateCurrencyAstWithUncertainty h rates n w bv ctr with
      | error e =>
        rw [h1] at heval
        replace heval : Except.error e = Except.ok (v, ctr2) := heval
        cases heval
      | ok p =>
        rw [h1] at heval
        obtain ⟨pv, pc⟩ := p
        obtain ⟨hshape, hpres⟩ := ih bv ctr pc pv hbv h1
        cases pv with
        | scalar m mn mx s =>
          simp only [SampLenOK, CVal.sampOf] at hshape
          replace heval : Except.ok (CVal.scalar (jsNeg m) (jsMin (jsNeg mx) (jsNeg mn))
              (jsMax (jsNeg mx) (jsNeg mn)) (Option.map (List.map jsNeg) s), pc)
              = Except.ok (v, ctr2) := heval
          injection heval with heval
          rw [Prod.mk.injEq] at heval
          obtain ⟨rfl, rfl⟩ := heval
          refine ⟨sampMap_len _ hshape, fun hpre => ?_⟩
          obtain ⟨lx, hlx, hlen⟩ := hpres (by simpa [containsTilde] using hpre)
          simp only [CVal.sampOf] at hlx ⊢
          rw [hlx]
          exact ⟨_, rfl, by simp [hlen]⟩
        | money m mn mx s c =>
          simp only [SampLenOK, CVal.sampOf] at hshape
          replace heval : Except.ok (CVal.money (roundCurrencyValue (jsNeg m))
              (roundCurrencyValue (jsMin (jsNeg mx) (jsNeg mn)))
              (roundCurrencyValue (jsMax (jsNeg mx) (jsNeg mn)))
              ((Option.map (List.map jsNeg) s).map (List.map roundCurrencyValue)) c, pc)
              = Except.ok (v, ctr2) := heval
          injection heval with heval
          rw [Prod.mk.injEq] at heval
          obtain ⟨rfl, rfl⟩ := heval
          refine ⟨sampMap_len _ (sampMap_len _ hshape), fun hpre => ?_⟩
          obtain ⟨lx, hlx, hlen⟩ := hpres (by simpa [containsTilde] using hpre)
          simp only [CVal.sampOf] at hlx ⊢
          rw [hlx]
          exact ⟨_, rfl, by simp [hlen]⟩
  | binary op a b iha ihb =>
    intro bv ctr ctr2 v hbv heval
    simp only [evaluateCurrencyAstWithUncertainty] at heval
    cases h1 : evaluateCurrencyAstWithUncertainty h rates n a bv ctr with
    | error e =>
      rw [h1] at heval
      replace heval : Except.error e = Except.ok (v, ctr2) := heval
      cases heval
    | ok pl =>
      rw [h1] at heval
      obtain ⟨plv, plc⟩ := pl
      replace heval : (do
          let pr ← evaluateCurrencyAstWithUncertainty h rates n b bv plc
          evaluateCurrencyBinaryWithUncertainty h op plv pr.1 rates n pr.2)
          = Except.ok (v, ctr2) := heval
      cases h2 : evaluateCurrencyAstWithUncertainty h rates n b bv plc with
      | error e =>
        rw [h2] at heval
        replace heval : Except.error e = Except.ok (v, ctr2) := heval
        cases heval
      | ok pr =>
        rw [h2] at heval
        obtain ⟨prv, prc⟩ := pr
        replace heval : evaluateCurrencyBinaryWithUncertainty h op plv prv rates n prc
            = Except.ok (v, ctr2) := heval
        obtain ⟨hsl, hpl⟩ := iha bv ctr plc plv hbv h1
        obtain ⟨hsr, hpr⟩ := ihb bv plc prc prv hbv h2
        obtain ⟨hsv, hpresv⟩ :=
          binaryUncert_samples h op plv prv rates n prc ctr2 v hsl hsr heval
        refine ⟨hsv, fun hpre => hpresv ?_⟩
        simp only [containsTilde, Bool.or_eq_true, beq_iff_eq] at hpre
        rcases hpre with (hpre | hpre) | hpre
        · exact Or.inl hpre
        · obtain ⟨lx, hlx, _⟩ := hpl hpre
          exact Or.inr (Or.inl (by simp [hlx]))
        · obtain ⟨lx, hlx, _⟩ := hpr hpre
          exact Or.inr (Or.inr (by simp [hlx]))


/-- C7: `evaluateExpressionWithSteps "(60~115)pln to eur" 128` produces a
samples array of length exactly 128 with min ≤ max; in general a `~` anywhere
in a currency tree forces samples of length exactly the configured sample
count (the shape surviving every operator, money multiplication included),
and currency conversion preserves presence and length of the samples. -/
theorem c7_samples_length :
    (∀ host : Host, ∃ l : List JSNum,
      evaluateExpressionWithSteps host "(60~115)pln to eur" 128 none =
        .ok ⟨true, some "eur",
          ["60 ~ 115 * 1pln to eur", "87.5 * 1pln to eur", "87.5pln to eur", "20.73eur"],
          some ⟨fin (2073/100), fin (711/50), fin (109/4), some l, some "eur",
            some "20.73eur"⟩⟩ ∧
      l.length = 128 ∧ jsLe (fin (711/50)) (fin (109/4)) = true) ∧
    (∀ (host : Host) (rates : RateMap) (n : Nat) (node : CNode) (bv : Option CVal)
      (ctr ctr2 : Nat) (v : CVal),
      (∀ b, bv = some b → SampLenOK n b) →
      evaluateCurrencyAstWithUncertainty host rates n node bv ctr = .ok (v, ctr2) →
      SampLenOK n v ∧
        (containsTilde node = true → ∃ ls, v.sampOf = some ls ∧ ls.length = n)) ∧
    (∀ (val w : CVal) (tc : String) (rates : RateMap) (n : Nat),
      convertCurrencyValue val tc rates = .ok w →
      SampLenOK n val →
      SampLenOK n w ∧
        (∀ lv, val.sampOf = some lv → ∃ lw, w.sampOf = some lw ∧ lw.length = n)) := by
  refine ⟨?_, ?_, ?_⟩
  · intro host
    refine ⟨_, rfl, ?_, by decide⟩
    simp
  · intro host rates n node bv ctr ctr2 v hbv heval
    exact evalCA_samples host rates n node bv ctr ctr2 v hbv heval
  · intro val w tc rates n hconv hval
    obtain ⟨habs, hpres⟩ := convertCurrencyValue_samples val w tc rates hconv
    refine ⟨?_, fun lv hlv => ?_⟩
    · rcases hval with hn | ⟨lx, hlx, hlen⟩
      · exact Or.inl (habs hn)
      · obtain ⟨lw, hlw, hlenw⟩ := hpres lx hlx
        exact Or.inr ⟨lw, hlw, by rw [hlenw, hlen]⟩
    · obtain ⟨lw, hlw, hlenw⟩ := hpres lv hlv
      refine ⟨lw, hlw, ?_⟩
      rcases hval with hn | ⟨lx, hlx, hlen⟩
      · rw [hlv] at hn
        cases hn
      · rw [hlv] at hlx
        injection hlx with hlx
        rw [hlenw, hlx]
        exact hlen

/-- Witness for C7: the general sample-shape statement applied to the tree
`1 ~ 1` with sample count 2 under the zero host. -/
theorem c7_samples_length_witness :
    SampLenOK 2 (CVal.scalar (fin 1) (fin 1) (fin 1) (some [fin 1, fin 1])) ∧
      (containsTilde (CNode.binary "~" (CNode.lit (CLit.scalar (fin 1)))
          (CNode.lit (CLit.scalar (fin 1)))) = true →
        ∃ ls, (CVal.scalar (fin 1) (fin 1) (fin 1) (some [fin 1, fin 1])).sampOf
          = some ls ∧ ls.length = 2) :=
  c7_samples_length.2.1 hostZero [] 2
    (CNode.binary "~" (CNode.lit (CLit.scalar (fin 1))) (CNode.lit (CLit.scalar (fin 1))))
    none 0 0 (CVal.scalar (fin 1) (fin 1) (fin 1) (some [fin 1, fin 1]))
    (fun b hb => Option.noConfusion hb) (by decide)


/-- Unfolding of the assoc-list lookup on a cons cell. -/
theorem lookupA_cons {α : Type} (k : String) (v : α) (m : List (String × α)) (key : String) :
    lookupA ((k, v) :: m) key = if k == key then some v else lookupA m key := by
  by_cases hk : (k == key) = true
  · simp [lookupA, List.find?_cons, hk]
  · simp only [lookupA, List.find?_cons]
    rw [Bool.not_eq_true] at hk
    simp [hk]

/-- A successful lookup is a member of the assoc list. -/
theorem lookupA_mem {α : Type} {m : List (String × α)} {k : String} {v : α}
    (h : lookupA m k = some v) : (k, v) ∈ m := by
  rw [lookupA] at h
  cases hf : m.find? (fun p => p.1 == k) with
  | none => rw [hf] at h; cases h
  | some p =>
    rw [hf] at h
    replace h : some p.2 = some v := h
    injection h with h
    have hm := List.mem_of_find?_eq_some hf
    have hp : p.1 = k := by simpa using List.find?_some hf
    subst h
    rw [← hp]
    simpa using hm

/-- On an assoc list without duplicate keys, membership determines the
lookup. -/
theorem lookupA_of_mem_nodup {α : Type} :
    ∀ (m : List (String × α)) (k : String) (v : α),
      (m.map Prod.fst).Nodup → (k, v) ∈ m → lookupA m k = some v := by
  intro m
  induction m with
  | nil => intro k v _ hm; cases hm
  | cons p rest ih =>
    obtain ⟨k2, v2⟩ := p
    intro k v hnd hm
    rw [List.map_cons, List.nodup_cons] at hnd
    rcases List.mem_cons.mp hm with heq | hmem
    · injection heq with h1 h2
      subst h1
      subst h2
      rw [lookupA_cons, if_pos (by simp)]
    · by_cases hk : k2 = k
      · exfalso
        apply hnd.1
        subst hk
        exact List.mem_map.mpr ⟨(k2, v), hmem, rfl⟩
      · rw [lookupA_cons, if_neg (by simpa using hk)]
        exact ih k v hnd.2 hmem

/-- Membership in the (duplicate-free) neighbor list found by `lookupA`
determines `innerGet`. -/
theorem innerGet_of_lookup {rates : RateMap} {c b : String} {t : RateTargets} {e : ℚ}
    (hlk : lookupA rates c = some t) (hnd : (t.map Prod.fst).Nodup)
    (hm : (b, e) ∈ t) : innerGet rates c b = some e := by
  rw [innerGet, hlk]
  exact lookupA_of_mem_nodup t b e hnd hm

/-- A positive-rate path extends on the right by one positive edge
(multiplying the rate on the right). -/
theorem pathRate_snoc {rates : RateMap} {a b : String} {r : ℚ}
    (h : PathRate rates a b r) :
    ∀ {c : String} {e : ℚ}, innerGet rates b c = some e → 0 < e →
      PathRate rates a c (r * e) := by
  induction h with
  | refl a =>
    intro c e he hpos
    have hs := PathRate.step a c c e 1 he hpos (PathRate.refl c)
    rw [show (1 : ℚ) * e = e * 1 by ring]
    exact hs
  | step a b c2 e2 r2 hedge hpos2 hrest ih =>
    intro c e he hpos
    have hs := PathRate.step a b c e2 (r2 * e) hedge hpos2 (ih he hpos)
    rw [show e2 * r2 * e = e2 * (r2 * e) by ring]
    exact hs

/-- A set of currencies closed under positive out-edges absorbs every
positive-rate path that starts inside it. -/
theorem pathRate_closed (rates : RateMap) (vis : List String)
    (hcl : ∀ x ∈ vis, ∀ nc e, innerGet rates x nc = some e → 0 < e → nc ∈ vis) :
    ∀ (a b : String) (r : ℚ), PathRate rates a b r → a ∈ vis → b ∈ vis := by
  intro a b r hp
  induction hp with
  | refl a => exact fun h => h
  | step a b c e r hedge hpos hrest ih =>
    intro ha
    exact ih (hcl a ha b e hedge hpos)

/-- Every key of a neighbor list of the rate map is a known currency. -/
theorem targets_keys_mem (rates : RateMap) (c : String) (t : RateTargets)
    (hlk : lookupA rates c = some t) : ∀ p ∈ t, p.1 ∈ allCurrencies rates := by
  intro p hp
  have hmem : (c, t) ∈ rates := lookupA_mem hlk
  rw [allCurrencies]
  apply List.mem_dedup.mpr
  apply List.mem_append_right
  apply List.mem_flatten.mpr
  exact ⟨t.map Prod.fst, List.mem_map.mpr ⟨(c, t), hmem, rfl⟩, List.mem_map_of_mem _ hp⟩

/-- Growing the visited set cannot increase the count of unvisited
currencies. -/
theorem filter_unvis_mono : ∀ (l vis : List String) (k : String),
    (l.filter fun x => !decide (x ∈ k :: vis)).length ≤
      (l.filter fun x => !decide (x ∈ vis)).length := by
  intro l
  induction l with
  | nil => intro vis k; exact le_refl _
  | cons a rest ih =>
    intro vis k
    rw [List.filter_cons, List.filter_cons]
    by_cases hav : a ∈ vis
    · rw [if_neg (by simp [hav]), if_neg (by simp [hav])]
      exact ih vis k
    · by_cases hak : a = k
      · rw [if_neg (by simp [hak]), if_pos (by simp [hav])]
        simp only [List.length_cons]
        exact le_trans (ih vis k) (Nat.le_succ _)
      · rw [if_pos (by simp [hak, hav]), if_pos (by simp [hav])]
        simp only [List.length_cons]
        exact Nat.succ_le_succ (ih vis k)

/-- Visiting a fresh currency of the universe strictly decreases the count of
unvisited currencies. -/
theorem filter_unvis_step : ∀ (l vis : List String) (k : String),
    k ∈ l → k ∉ vis →
    (l.filter fun x => !decide (x ∈ k :: vis)).length + 1 ≤
      (l.filter fun x => !decide (x ∈ vis)).length := by
  intro l
  induction l with
  | nil => intro vis k hk _; cases hk
  | cons a rest ih =>
    intro vis k hk hv
    rw [List.filter_cons, List.filter_cons]
    by_cases ha : a = k
    · subst ha
      rw [if_neg (by simp), if_pos (by simp [hv])]
      simp only [List.length_cons]
      have := filter_unvis_mono rest vis a
      omega
    · have hk2 : k ∈ rest := by
        rcases List.mem_cons.mp hk with h | h
        · exact absurd h.symm ha
        · exact h
      by_cases hav : a ∈ vis
      · rw [if_neg (by simp [hav]), if_neg (by simp [hav])]
        exact ih vis k hk2 hv
      · rw [if_pos (by simp [ha, hav]), if_pos (by simp [hav])]
        simp only [List.length_cons]
        have := ih vis k hk2 hv
        omega

/-- `unvisCount` form of the strict decrease. -/
theorem unvisCount_strict (rates : RateMap) (k : String) (vis : List String)
    (hk : k ∈ allCurrencies rates) (hv : k ∉ vis) :
    unvisCount rates (k :: vis) + 1 ≤ unvisCount rates vis := by
  rw [unvisCount, unvisCount]
  exact filter_unvis_step _ _ _ hk hv


/-- When the neighbor scan finds the target it reports the popped entry's
cumulative rate times a positive edge rate to the target. -/
theorem bfsScan_some_spec (dst : String) (cum : ℚ) :
    ∀ (ts : RateTargets) (vis : List String) (q : List (String × ℚ))
      (vis2 : List String) (q2 : List (String × ℚ)) (r : ℚ),
      bfsScan dst cum ts vis q = (some r, vis2, q2) →
      ∃ e, (dst, e) ∈ ts ∧ 0 < e ∧ r = cum * e := by
  intro ts
  induction ts with
  | nil =>
    intro vis q vis2 q2 r h
    replace h : ((none : Option ℚ), vis, q) = (some r, vis2, q2) := h
    injection h with h1 _
    cases h1
  | cons p rest ih =>
    obtain ⟨k, rr⟩ := p
    intro vis q vis2 q2 r h
    simp only [bfsScan] at h
    by_cases hr : rr ≤ 0
    · rw [if_pos hr] at h
      obtain ⟨e, hm, hp, he⟩ := ih _ _ _ _ _ h
      exact ⟨e, List.mem_cons_of_mem _ hm, hp, he⟩
    · rw [if_neg hr] at h
      by_cases hv : k ∈ vis
      · rw [if_pos hv] at h
        obtain ⟨e, hm, hp, he⟩ := ih _ _ _ _ _ h
        exact ⟨e, List.mem_cons_of_mem _ hm, hp, he⟩
      · rw [if_neg hv] at h
        by_cases hd : k = dst
        · rw [if_pos hd] at h
          replace h : (some (cum * rr), vis, q) = (some r, vis2, q2) := h
          injection h with h1 _
          injection h1 with h1
          subst hd
          exact ⟨rr, List.mem_cons_self .., lt_of_not_le hr, h1.symm⟩
        · rw [if_neg hd] at h
          obtain ⟨e, hm, hp, he⟩ := ih _ _ _ _ _ h
          exact ⟨e, List.mem_cons_of_mem _ hm, hp, he⟩

/-- Full specification of a neighbor scan that does not find the target: the
visited set and queue only grow, new queue entries are freshly visited
positive neighbors with the correct cumulative rate, the target stays
unvisited, new visited currencies are queued, every positive looked-up
neighbor ends visited, and queue plus unvisited count does not grow. -/
theorem bfsScan_none_spec (rates : RateMap) (dst : String) (cum : ℚ) :
    ∀ (ts : RateTargets) (vis : List String) (q : List (String × ℚ))
      (vis2 : List String) (q2 : List (String × ℚ)),
      bfsScan dst cum ts vis q = (none, vis2, q2) →
      (∀ x ∈ vis, x ∈ vis2) ∧
      (∀ p ∈ q, p ∈ q2) ∧
      (∀ p ∈ q2, p ∈ q ∨ (p.1 ∈ vis2 ∧ ∃ e, (p.1, e) ∈ ts ∧ 0 < e ∧ p.2 = cum * e)) ∧
      (dst ∉ vis → dst ∉ vis2) ∧
      (∀ x ∈ vis2, x ∈ vis ∨ ∃ p ∈ q2, p.1 = x) ∧
      (∀ nc e, lookupA ts nc = some e → 0 < e → nc ∈ vis2) ∧
      ((∀ p ∈ ts, p.1 ∈ allCurrencies rates) →
        q2.length + unvisCount rates vis2 ≤ q.length + unvisCount rates vis) := by
  intro ts
  induction ts with
  | nil =>
    intro vis q vis2 q2 h
    replace h : ((none : Option ℚ), vis, q) = (none, vis2, q2) := h
    injection h with _ h2
    injection h2 with h2 h3
    subst h2
    subst h3
    refine ⟨fun x hx => hx, fun p hp => hp, fun p hp => Or.inl hp, fun hh => hh,
      fun x hx => Or.inl hx, fun nc e he _ => ?_, fun _ => le_refl _⟩
    simp [lookupA] at he
  | cons p rest ih =>
    obtain ⟨k, rr⟩ := p
    intro vis q vis2 q2 h
    simp only [bfsScan] at h
    by_cases hr : rr ≤ 0
    · rw [if_pos hr] at h
      obtain ⟨c1, c2, c3, c4, c5, c6, c7⟩ := ih _ _ _ _ h
      refine ⟨c1, c2, ?_, c4, c5, ?_, ?_⟩
      · intro p hp
        rcases c3 p hp with hin | ⟨hv2, e, hm, hp2, hpe⟩
        · exact Or.inl hin
        · exact Or.inr ⟨hv2, e, List.mem_cons_of_mem _ hm, hp2, hpe⟩
      · intro nc e he hpos
        rw [lookupA_cons] at he
        by_cases hk : k = nc
        · rw [if_pos (by simpa using hk)] at he
          injection he with he
          rw [he] at hr
          exact absurd hpos (not_lt.mpr hr)
        · rw [if_neg (by simpa using hk)] at he
          exact c6 nc e he hpos
      · intro hkeys
        exact c7 (fun p hp => hkeys p (List.mem_cons_of_mem _ hp))
    · rw [if_neg hr] at h
      by_cases hv : k ∈ vis
      · rw [if_pos hv] at h
        obtain ⟨c1, c2, c3, c4, c5, c6, c7⟩ := ih _ _ _ _ h
        refine ⟨c1, c2, ?_, c4, c5, ?_, ?_⟩
        · intro p hp
          rcases c3 p hp with hin | ⟨hv2, e, hm, hp2, hpe⟩
          · exact Or.inl hin
          · exact Or.inr ⟨hv2, e, List.mem_cons_of_mem _ hm, hp2, hpe⟩
        · intro nc e he hpos
          rw [lookupA_cons] at he
          by_cases hk : k = nc
          · exact hk ▸ c1 k hv
          · rw [if_neg (by simpa using hk)] at he
            exact c6 nc e he hpos
        · intro hkeys
          exact c7 (fun p hp => hkeys p (List.mem_cons_of_mem _ hp))
      · rw [if_neg hv] at h
        by_cases hd : k = dst
        · rw [if_pos hd] at h
          replace h : (some (cum * rr), vis, q) = ((none : Option ℚ), vis2, q2) := h
          injection h with h1 _
          cases h1
        · rw [if_neg hd] at h
          obtain ⟨c1, c2, c3, c4, c5, c6, c7⟩ := ih _ _ _ _ h
          have hkv : k ∈ vis2 := c1 k (List.mem_cons_self ..)
          have hnewq : (k, cum * rr) ∈ q2 :=
            c2 _ (List.mem_append_right _ (List.mem_cons_self ..))
          refine ⟨fun x hx => c1 x (List.mem_cons_of_mem _ hx),
            fun p hp => c2 p (List.mem_append_left _ hp), ?_, ?_, ?_, ?_, ?_⟩
          · intro p hp
            rcases c3 p hp with hin | ⟨hv2, e, hm, hp2, hpe⟩
            · rcases List.mem_append.mp hin with hin | hin
              · exact Or.inl hin
              · have hpk : p = (k, cum * rr) := by simpa using hin
                subst hpk
                exact Or.inr ⟨hkv, rr, List.mem_cons_self .., lt_of_not_le hr, rfl⟩
            · exact Or.inr ⟨hv2, e, List.mem_cons_of_mem _ hm, hp2, hpe⟩
          · intro hdv
            apply c4
            intro hcontra
            rcases List.mem_cons.mp hcontra with hc | hc
            · exact hd hc.symm
            · exact hdv hc
          · intro x hx
            rcases c5 x hx with hxk | hq2
            · rcases List.mem_cons.mp hxk with hxe | hxv
              · exact Or.inr ⟨(k, cum * rr), hnewq, hxe.symm⟩
              · exact Or.inl hxv
            · exact Or.inr hq2
          · intro nc e he hpos
            rw [lookupA_cons] at he
            by_cases hk : k = nc
            · exact hk ▸ hkv
            · rw [if_neg (by simpa using hk)] at he
              exact c6 nc e he hpos
          · intro hkeys
            have h7 := c7 (fun p hp => hkeys p (List.mem_cons_of_mem _ hp))
            have hstep : unvisCount rates (k :: vis) + 1 ≤ unvisCount rates vis :=
              unvisCount_strict rates k vis (hkeys (k, rr) (List.mem_cons_self ..)) hv
            simp only [List.length_append, List.length_cons, List.length_nil] at h7
            omega


/-- Soundness of the BFS loop: under inner-key well-formedness, a found rate
is the product of positive edge rates along a path from the source. -/
theorem bfsGo_sound (rates : RateMap) (src dst : String) (hwf : RatesWF rates) :
    ∀ (fuel : Nat) (q : List (String × ℚ)) (vis : List String) (r : ℚ),
      (∀ p ∈ q, PathRate rates src p.1 p.2) →
      bfsGo rates dst fuel q vis = some r →
      PathRate rates src dst r := by
  intro fuel
  induction fuel with
  | zero =>
    intro q vis r _ h
    simp only [bfsGo] at h
    cases h
  | succ f ih =>
    intro q vis r hq h
    cases q with
    | nil =>
      replace h : (none : Option ℚ) = some r := h
      cases h
    | cons p qrest =>
      obtain ⟨c, cum⟩ := p
      simp only [bfsGo] at h
      obtain ⟨⟨res, vis2, q2⟩, hscan⟩ :
          ∃ x, bfsScan dst cum ((lookupA rates c).getD []) vis qrest = x := ⟨_, rfl⟩
      rw [hscan] at h
      cases res with
      | some r0 =>
        replace h : some r0 = some r := h
        injection h with h
        subst h
        cases hlk : lookupA rates c with
        | none =>
          rw [hlk] at hscan
          replace hscan : ((none : Option ℚ), vis, qrest) = (some r0, vis2, q2) := hscan
          injection hscan with h1 _
          cases h1
        | some t =>
          rw [hlk] at hscan
          obtain ⟨e, hmem, hpos, hre⟩ := bfsScan_some_spec dst cum t vis qrest vis2 q2 r0 hscan
          have hedge : innerGet rates c dst = some e :=
            innerGet_of_lookup hlk (hwf _ (lookupA_mem hlk)) hmem
          have hpath : PathRate rates src c cum := hq (c, cum) (List.mem_cons_self ..)
          rw [hre]
          exact pathRate_snoc hpath hedge hpos
      | none =>
        apply ih q2 vis2 r _ h
        intro p hp
        cases hlk : lookupA rates c with
        | none =>
          rw [hlk] at hscan
          replace hscan : ((none : Option ℚ), vis, qrest) = ((none : Option ℚ), vis2, q2) := hscan
          injection hscan with _ h2
          injection h2 with h2 h3
          subst h2
          subst h3
          exact hq p (List.mem_cons_of_mem _ hp)
        | some t =>
          rw [hlk] at hscan
          obtain ⟨_, _, c3, _, _, _, _⟩ := bfsScan_none_spec rates dst cum t vis qrest vis2 q2 hscan
          rcases c3 p hp with hmem | ⟨_, e, hmem, hpos, hpe⟩
          · exact hq p (List.mem_cons_of_mem _ hmem)
          · have hedge : innerGet rates c p.1 = some e :=
              innerGet_of_lookup hlk (hwf _ (lookupA_mem hlk)) hmem
            have hpath : PathRate rates src c cum := hq (c, cum) (List.mem_cons_self ..)
            rw [hpe]
            exact pathRate_snoc hpath hedge hpos

/-- Completeness of the BFS loop: with the loop invariant (queued currencies
are visited, the target is unvisited, every visited currency is queued or
fully expanded), enough fuel, and a positive path into the target from some
visited currency, the BFS finds a rate. -/
theorem bfsGo_complete (rates : RateMap) (dst : String) :
    ∀ (fuel : Nat) (q : List (String × ℚ)) (vis : List String),
      (∀ p ∈ q, p.1 ∈ vis) →
      dst ∉ vis →
      (∀ x ∈ vis, (∃ p ∈ q, p.1 = x) ∨
        ∀ nc e, innerGet rates x nc = some e → 0 < e → nc ∈ vis) →
      q.length + unvisCount rates vis ≤ fuel →
      (∃ x r, x ∈ vis ∧ PathRate rates x dst r) →
      ∃ r2, bfsGo rates dst fuel q vis = some r2 := by
  intro fuel
  induction fuel with
  | zero =>
    intro q vis hq hdst hvis hfuel hreach
    exfalso
    have hqnil : q = [] := List.length_eq_zero.mp (by omega)
    subst hqnil
    obtain ⟨x, r, hx, hpath⟩ := hreach
    have hcl : ∀ y ∈ vis, ∀ nc e, innerGet rates y nc = some e → 0 < e → nc ∈ vis := by
      intro y hy
      rcases hvis y hy with ⟨p, hp, _⟩ | hcl
      · cases hp
      · exact hcl
    exact hdst (pathRate_closed rates vis hcl x dst r hpath hx)
  | succ f ih =>
    intro q vis hq hdst hvis hfuel hreach
    cases q with
    | nil =>
      exfalso
      obtain ⟨x, r, hx, hpath⟩ := hreach
      have hcl : ∀ y ∈ vis, ∀ nc e, innerGet rates y nc = some e → 0 < e → nc ∈ vis := by
        intro y hy
        rcases hvis y hy with ⟨p, hp, _⟩ | hcl
        · cases hp
        · exact hcl
      exact hdst (pathRate_closed rates vis hcl x dst r hpath hx)
    | cons p qrest =>
      obtain ⟨c, cum⟩ := p
      obtain ⟨⟨res, vis2, q2⟩, hscan⟩ :
          ∃ x, bfsScan dst cum ((lookupA rates c).getD []) vis qrest = x := ⟨_, rfl⟩
      cases res with
      | some r0 =>
        refine ⟨r0, ?_⟩
        simp only [bfsGo]
        rw [hscan]
      | none =>
        have hnext : ∃ r2, bfsGo rates dst f q2 vis2 = some r2 := by
          cases hlk : lookupA rates c with
          | none =>
            rw [hlk] at hscan
            replace hscan : ((none : Option ℚ), vis, qrest)
                = ((none : Option ℚ), vis2, q2) := hscan
            injection hscan with _ h2
            injection h2 with h2 h3
            subst h2
            subst h3
            refine ih qrest vis (fun p hp => hq p (List.mem_cons_of_mem _ hp)) hdst ?_
              (by simp only [List.length_cons] at hfuel; omega) hreach
            intro x hx
            rcases hvis x hx with ⟨p, hp, hpx⟩ | hcl
            · rcases List.mem_cons.mp hp with hpc | hp2
              · have hxc : x = c := by rw [← hpx, hpc]
                subst hxc
                refine Or.inr ?_
                intro nc e he _
                rw [innerGet, hlk] at he
                replace he : (none : Option ℚ) = some e := he
                cases he
              · exact Or.inl ⟨p, hp2, hpx⟩
            · exact Or.inr hcl
          | some t =>
            rw [hlk] at hscan
            obtain ⟨c1, c2, c3, c4, c5, c6, c7⟩ :=
              bfsScan_none_spec rates dst cum t vis qrest vis2 q2 hscan
            refine ih q2 vis2 ?_ (c4 hdst) ?_ ?_ ?_
            · intro p hp
              rcases c3 p hp with hmem | ⟨hv2, _, _, _, _⟩
              · exact c1 p.1 (hq p (List.mem_cons_of_mem _ hmem))
              · exact hv2
            · intro x hx
              rcases c5 x hx with hxv | hq2
              · rcases hvis x hxv with ⟨p, hp, hpx⟩ | hcl
                · rcases List.mem_cons.mp hp with hpc | hp2
                  · have hxc : x = c := by rw [← hpx, hpc]
                    subst hxc
                    refine Or.inr ?_
                    intro nc e he hpos
                    rw [innerGet, hlk] at he
                    replace he : lookupA t nc = some e := he
                    exact c6 nc e he hpos
                  · exact Or.inl ⟨p, c2 p hp2, hpx⟩
                · refine Or.inr ?_
                  intro nc e he hpos
                  exact c1 nc (hcl nc e he hpos)
              · exact Or.inl hq2
            · have h7 := c7 (targets_keys_mem rates c t hlk)
              simp only [List.length_cons] at hfuel
              omega
            · obtain ⟨x, r, hx, hpath⟩ := hreach
              exact ⟨x, r, c1 x hx, hpath⟩
        obtain ⟨r2, hr2⟩ := hnext
        refine ⟨r2, ?_⟩
        simp only [bfsGo]
        rw [hscan]
        exact hr2


/-- C4: `getCurrencyRate` returns 1 on equal codes, else a direct rate, else
the reciprocal of the reverse rate, else (on a well-formed map) the product of
positive edge rates along a path found by the BFS; it returns the
missing-path error naming both currencies exactly when no positive path
exists; and `evaluateExpressionWithSteps "(1~2)pln to xyz" 128` fails with
exactly that error. -/
theorem c4_rate_resolver :
    (∀ (fc tc : String) (rates : RateMap), toLowerStr fc = toLowerStr tc →
      getCurrencyRate fc tc rates = .ok 1) ∧
    (∀ (fc tc : String) (rates : RateMap) (r : ℚ), toLowerStr fc ≠ toLowerStr tc →
      innerGet rates (toLowerStr fc) (toLowerStr tc) = some r →
      getCurrencyRate fc tc rates = .ok r) ∧
    (∀ (fc tc : String) (rates : RateMap) (r : ℚ), toLowerStr fc ≠ toLowerStr tc →
      innerGet rates (toLowerStr fc) (toLowerStr tc) = none →
      innerGet rates (toLowerStr tc) (toLowerStr fc) = some r →
      getCurrencyRate fc tc rates = .ok (1 / r)) ∧
    (∀ (fc tc : String) (rates : RateMap) (r : ℚ), RatesWF rates →
      getCurrencyRate fc tc rates = .ok r →
      (toLowerStr fc = toLowerStr tc ∧ r = 1) ∨
      innerGet rates (toLowerStr fc) (toLowerStr tc) = some r ∨
      (∃ e, innerGet rates (toLowerStr tc) (toLowerStr fc) = some e ∧ r = 1 / e) ∨
      PathRate rates (toLowerStr fc) (toLowerStr tc) r) ∧
    (∀ (fc tc : String) (rates : RateMap) (msg : String),
      getCurrencyRate fc tc rates = .error msg →
      msg = "Missing exchange rate path for " ++ fc ++ "->" ++ tc) ∧
    (∀ (fc tc : String) (rates : RateMap), RatesWF rates →
      (getCurrencyRate fc tc rates
          = .error ("Missing exchange rate path for " ++ fc ++ "->" ++ tc) ↔
        (toLowerStr fc ≠ toLowerStr tc ∧
          innerGet rates (toLowerStr fc) (toLowerStr tc) = none ∧
          innerGet rates (toLowerStr tc) (toLowerStr fc) = none ∧
          ¬ RateReach rates (toLowerStr fc) (toLowerStr tc)))) ∧
    (∀ host : Host, evaluateExpressionWithSteps host "(1~2)pln to xyz" 128 none
      = .error "Missing exchange rate path for pln->xyz") := by
  have hbfs_none_of_noreach : ∀ (fc tc : String) (rates : RateMap),
      toLowerStr fc ≠ toLowerStr tc →
      bfsGo rates (toLowerStr tc) ((allCurrencies rates).length + 1)
        [(toLowerStr fc, 1)] [toLowerStr fc] = none →
      ¬ RateReach rates (toLowerStr fc) (toLowerStr tc) := by
    intro fc tc rates hne hbfs ⟨rp, hpath⟩
    obtain ⟨r2, hr2⟩ := bfsGo_complete rates (toLowerStr tc)
      ((allCurrencies rates).length + 1) [(toLowerStr fc, 1)] [toLowerStr fc]
      (by intro p hp; simp at hp; simp [hp])
      (by
        intro hc
        have hce : toLowerStr tc = toLowerStr fc := by simpa using hc
        exact hne hce.symm)
      (by
        intro x hx
        have hxf : x = toLowerStr fc := by simpa using hx
        exact Or.inl ⟨(toLowerStr fc, 1), by simp, hxf.symm⟩)
      (by
        have : unvisCount rates [toLowerStr fc] ≤ (allCurrencies rates).length := by
          rw [unvisCount]
          exact List.length_filter_le _ _
        simp only [List.length_cons, List.length_nil]
        omega)
      ⟨toLowerStr fc, rp, by simp, hpath⟩
    rw [hbfs] at hr2
    cases hr2
  refine ⟨?_, ?_, ?_, ?_, ?_, ?_, ?_⟩
  · intro fc tc rates hlow
    simp only [getCurrencyRate]
    rw [if_pos hlow]
  · intro fc tc rates r hne hdir
    simp only [getCurrencyRate]
    rw [if_neg hne, hdir]
  · intro fc tc rates r hne hdir hrev
    simp only [getCurrencyRate]
    rw [if_neg hne, hdir, hrev]
  · intro fc tc rates r hwf heval
    simp only [getCurrencyRate] at heval
    by_cases heq : toLowerStr fc = toLowerStr tc
    · rw [if_pos heq] at heval
      replace heval : Except.ok (1 : ℚ) = Except.ok r := heval
      injection heval with heval
      exact Or.inl ⟨heq, heval.symm⟩
    · rw [if_neg heq] at heval
      cases hdir : innerGet rates (toLowerStr fc) (toLowerStr tc) with
      | some r0 =>
        rw [hdir] at heval
        replace heval : Except.ok r0 = Except.ok r := heval
        injection heval with heval
        subst heval
        exact Or.inr (Or.inl rfl)
      | none =>
        rw [hdir] at heval
        cases hrev : innerGet rates (toLowerStr tc) (toLowerStr fc) with
        | some r0 =>
          rw [hrev] at heval
          replace heval : Except.ok (1 / r0) = Except.ok r := heval
          injection heval with heval
          exact Or.inr (Or.inr (Or.inl ⟨r0, rfl, heval.symm⟩))
        | none =>
          rw [hrev] at heval
          cases hbfs : bfsGo rates (toLowerStr tc) ((allCurrencies rates).length + 1)
              [(toLowerStr fc, 1)] [toLowerStr fc] with
          | some r0 =>
            rw [hbfs] at heval
            replace heval : Except.ok r0 = Except.ok r := heval
            injection heval with heval
            subst heval
            refine Or.inr (Or.inr (Or.inr ?_))
            apply bfsGo_sound rates (toLowerStr fc) (toLowerStr tc) hwf _ _ _ _ _ hbfs
            intro p hp
            have hp1 : p = (toLowerStr fc, 1) := by simpa using hp
            rw [hp1]
            exact PathRate.refl _
          | none =>
            rw [hbfs] at heval
            replace heval : Except.error ("Missing exchange rate path for " ++ fc ++ "->" ++ tc)
                = Except.ok r := heval
            cases heval
  · intro fc tc rates msg heval
    simp only [getCurrencyRate] at heval
    by_cases heq : toLowerStr fc = toLowerStr tc
    · rw [if_pos heq] at heval
      replace heval : Except.ok (1 : ℚ) = Except.error msg := heval
      cases heval
    · rw [if_neg heq] at heval
      cases hdir : innerGet rates (toLowerStr fc) (toLowerStr tc) with
      | some r0 =>
        rw [hdir] at heval
        replace heval : Except.ok r0 = Except.error msg := heval
        cases heval
      | none =>
        rw [hdir] at heval
        cases hrev : innerGet rates (toLowerStr tc) (toLowerStr fc) with
        | some r0 =>
          rw [hrev] at heval
          replace heval : Except.ok (1 / r0) = Except.error msg := heval
          cases heval
        | none =>
          rw [hrev] at heval
          cases hbfs : bfsGo rates (toLowerStr tc) ((allCurrencies rates).length + 1)
              [(toLowerStr fc, 1)] [toLowerStr fc] with
          | some r0 =>
            rw [hbfs] at heval
            replace heval : Except.ok r0 = Except.error msg := heval
            cases heval
          | none =>
            rw [hbfs] at heval
            replace heval : Except.error ("Missing exchange rate path for " ++ fc ++ "->" ++ tc)
                = Except.error msg := heval
            injection heval with heval
            exact heval.symm
  · intro fc tc rates hwf
    constructor
    · intro heval
      simp only [getCurrencyRate] at heval
      by_cases heq : toLowerStr fc = toLowerStr tc
      · rw [if_pos heq] at heval
        replace heval : Except.ok (1 : ℚ) = Except.error _ := heval
        cases heval
      · rw [if_neg heq] at heval
        cases hdir : innerGet rates (toLowerStr fc) (toLowerStr tc) with
        | some r0 =>
          rw [hdir] at heval
          replace heval : Except.ok r0 = Except.error _ := heval
          cases heval
        | none =>
          rw [hdir] at heval
          cases hrev : innerGet rates (toLowerStr tc) (toLowerStr fc) with
          | some r0 =>
            rw [hrev] at heval
            replace heval : Except.ok (1 / r0) = Except.error _ := heval
            cases heval
          | none =>
            rw [hrev] at heval
            cases hbfs : bfsGo rates (toLowerStr tc) ((allCurrencies rates).length + 1)
                [(toLowerStr fc, 1)] [toLowerStr fc] with
            | some r0 =>
              rw [hbfs] at heval
              replace heval : Except.ok r0 = Except.error _ := heval
              cases heval
            | none =>
              exact ⟨heq, rfl, rfl, hbfs_none_of_noreach fc tc rates heq hbfs⟩
    · rintro ⟨hne, hdir, hrev, hnr⟩
      simp only [getCurrencyRate]
      rw [if_neg hne, hdir, hrev]
      cases hbfs : bfsGo rates (toLowerStr tc) ((allCurrencies rates).length + 1)
          [(toLowerStr fc, 1)] [toLowerStr fc] with
      | some r0 =>
        exfalso
        apply hnr
        refine ⟨r0, ?_⟩
        apply bfsGo_sound rates (toLowerStr fc) (toLowerStr tc) hwf _ _ _ _ _ hbfs
        intro p hp
        have hp1 : p = (toLowerStr fc, 1) := by simpa using hp
        rw [hp1]
        exact PathRate.refl _
      | none =>
        rfl
  · intro host
    rfl

/-- Witness for C4: the direct-rate case at the default rate map, resolving
`eur -> pln` to the stored rate `4.22`. -/
theorem c4_rate_resolver_witness :
    getCurrencyRate "eur" "pln" (buildCurrencyRateMap none) = .ok (211 / 50) :=
  c4_rate_resolver.2.1 "eur" "pln" (buildCurrencyRateMap none) (211 / 50)
    (by decide) (by decide)


end UnsureCalc
